import Mathlib

/-!
# Verification of the `dist` package (PHYLIP distance matrices)

A shallow embedding of `dist.go` from the EvolBioInf/dist repository.

Modelling conventions:
* `float64` distances are modelled as exact rationals (`ℚ`); the arithmetic
  expressions mirror the source's expressions literally.
* Go slices become `List`s; in-place slice mutation becomes explicit state
  passing with `List.set`, and `for` loops become fuel-indexed recursions that
  run exactly as many iterations as the Go loop does.
* `log.Fatalf` (process termination) and runtime panics (out-of-range slice
  indexing) are modelled as explicit outcomes, distinct from ordinary results.
* Go `int` values that may be negative (taxon indices) are modelled as `ℤ`.
-/

/- ## Cell access helpers for a matrix represented as a list of rows -/

/-- Read the cell at row `i`, column `j` (0 outside the allocated area;
all reads performed by the embedded loops are in range). -/
def getCell (m : List (List ℚ)) (i j : ℕ) : ℚ :=
  (m.getD i []).getD j 0

/-- Write the cell at row `i`, column `j` (no-op outside the allocated area;
all writes performed by the embedded loops are in range). -/
def setCell (m : List (List ℚ)) (i j : ℕ) (v : ℚ) : List (List ℚ) :=
  m.set i ((m.getD i []).set j v)

/- ## The data model of dist.go -/

/-- `DistMat` holds a square matrix of distances and a slice of taxon names
(struct `DistMat` in dist.go). -/
structure DistMat where
  Matrix : List (List ℚ)
  Names : List String
deriving Repr, DecidableEq

/-- `NewDistMat` returns a new n x n `DistMat` (function `NewDistMat` in
dist.go): n zero rows of length n and n empty names.  The Go parameter has
type `int`; `make` panics for a negative argument, so the scanner model guards
negative counts separately and this constructor takes a natural number. -/
def NewDistMat (n : ℕ) : DistMat :=
  ⟨List.replicate n (List.replicate n 0), List.replicate n ""⟩

/-- The exact value of `math.MaxFloat64`, i.e. (2^53-1)·2^971 = 2^1024 - 2^971. -/
def maxFloat64 : ℚ := ((2 ^ 1024 - 2 ^ 971 : ℕ) : ℚ)

/- ## The in-place compaction loop pattern

`Delete` and `DeletePair` compact a slice in place: they walk the slice with a
read index `i` and a write index `j ≤ i`, copy the elements to keep down to the
write position, and finally truncate to the write index.  `compactLoop keep
dflt rem i j cur` runs the remaining `rem` iterations of such a loop (the Go
loops run exactly `len` iterations, reading through the partially overwritten
slice, which is what `cur.getD i dflt` does here). -/

def compactLoop (keep : ℕ → Bool) (dflt : α) : ℕ → ℕ → ℕ → List α → ℕ × List α
  | 0, _, j, cur => (j, cur)
  | rem + 1, i, j, cur =>
    if keep i then
      compactLoop keep dflt rem (i + 1) (j + 1) (cur.set j (cur.getD i dflt))
    else
      compactLoop keep dflt rem (i + 1) j cur

/-- The elements of `orig` kept by `keep` among positions `i, i+1, …, i+rem-1`,
in order: the intended final content of a compaction loop. -/
def keptSeg (keep : ℕ → Bool) (dflt : α) (orig : List α) : ℕ → ℕ → List α
  | _, 0 => []
  | i, rem + 1 =>
    if keep i then orig.getD i dflt :: keptSeg keep dflt orig (i + 1) rem
    else keptSeg keep dflt orig (i + 1) rem

/- ## DistMat.Delete (method Delete in dist.go)

The matrix part is a cell-wise compaction: nested loops over the source matrix
skip row/column `taxon` and copy each surviving cell `(i, j)` down to position
`(ii, jj)`, then every row and the row list are truncated to length `n-1`.
The loops below read and write through the evolving matrix exactly as the Go
code does. -/

def delMatInner (taxon : ℤ) (i ii : ℕ) : ℕ → ℕ → ℕ → List (List ℚ) → List (List ℚ)
  | 0, _, _, m => m
  | fuel + 1, j, jj, m =>
    if (j : ℤ) = taxon then delMatInner taxon i ii fuel (j + 1) jj m
    else delMatInner taxon i ii fuel (j + 1) (jj + 1) (setCell m ii jj (getCell m i j))

def delMatOuter (taxon : ℤ) (n : ℕ) : ℕ → ℕ → ℕ → List (List ℚ) → List (List ℚ)
  | 0, _, _, m => m
  | fuel + 1, i, ii, m =>
    if (i : ℤ) = taxon then delMatOuter taxon n fuel (i + 1) ii m
    else delMatOuter taxon n fuel (i + 1) (ii + 1) (delMatInner taxon i ii n 0 0 m)

/-- Method `Delete` of dist.go: remove one taxon.  The Go code performs no
bounds check on `taxon`: after the (possibly vacuous) compaction it
unconditionally truncates the matrix to `n-1` rows and columns.  (For `n = 0`
the Go code would panic on `d.Matrix[:-1]`; natural subtraction makes this a
no-op here, and no claim concerns an empty matrix.) -/
def DistMat.Delete (d : DistMat) (taxon : ℤ) : DistMat :=
  let p := compactLoop (fun i => decide ((i : ℤ) ≠ taxon)) "" d.Names.length 0 0 d.Names
  let names := p.2.take p.1
  let n := d.Matrix.length
  let m := delMatOuter taxon n n 0 0 d.Matrix
  let m := (m.take (n - 1)).map (fun row => row.take (n - 1))
  ⟨m, names⟩

/-- Method `DeletePair` of dist.go: delete the two taxa at the original
indices `t1` and `t2` in one pass (names compaction, row compaction by value,
then per-row column compaction, each followed by truncation). -/
def DistMat.DeletePair (d : DistMat) (t1 t2 : ℤ) : DistMat :=
  let keep : ℕ → Bool := fun i => decide ((i : ℤ) ≠ t1 ∧ (i : ℤ) ≠ t2)
  let p := compactLoop keep "" d.Names.length 0 0 d.Names
  let names := p.2.take p.1
  let q := compactLoop keep [] d.Matrix.length 0 0 d.Matrix
  let mat := q.2.take q.1
  let mat := mat.map (fun row =>
    let c := compactLoop keep 0 row.length 0 0 row
    c.2.take c.1)
  ⟨mat, names⟩

/- ## DistMat.Append (method Append in dist.go) -/

/-- The loop `for i := 0; i < n; i++ { d.Matrix[i] = append(d.Matrix[i],
data[i]) }` of method `Append`. -/
def appendColsLoop (data : List ℚ) : ℕ → ℕ → List (List ℚ) → List (List ℚ)
  | 0, _, m => m
  | fuel + 1, i, m =>
    appendColsLoop data fuel (i + 1) (m.set i (m.getD i [] ++ [data.getD i 0]))

/-- Method `Append` of dist.go: append a taxon.  On a dimension mismatch the
Go code calls `log.Fatalf`, terminating the process; that outcome is modelled
as `none`. -/
def DistMat.Append (d : DistMat) (name : String) (data : List ℚ) : Option DistMat :=
  let n := d.Matrix.length
  if n ≠ data.length then none
  else
    let data := data ++ [0]
    let names := d.Names ++ [name]
    let mat := d.Matrix ++ [data]
    some ⟨appendColsLoop data n 0 mat, names⟩

/- ## DistMat.MakeSymmetrical (method MakeSymmetrical in dist.go) -/

def symInner (n i : ℕ) : ℕ → ℕ → List (List ℚ) → List (List ℚ)
  | 0, _, m => m
  | fuel + 1, j, m =>
    let m1 := getCell m i j
    let m2 := getCell m j i
    let a := (m1 + m2) / 2
    symInner n i fuel (j + 1) (setCell (setCell m i j a) j i a)

def symOuter (n : ℕ) : ℕ → ℕ → List (List ℚ) → List (List ℚ)
  | 0, _, m => m
  | fuel + 1, i, m => symOuter n fuel (i + 1) (symInner n i (n - (i + 1)) (i + 1) m)

/-- Method `MakeSymmetrical` of dist.go: replace each pair of opposite
off-diagonal entries by their arithmetic mean (`for i := 0; i < n-1; i++ { for
j := i+1; j < n; j++ { … } }`). -/
def DistMat.MakeSymmetrical (d : DistMat) : DistMat :=
  let n := d.Matrix.length
  ⟨symOuter n (n - 1) 0 d.Matrix, d.Names⟩

/- ## DistMat.Min and DistMat.Max (methods Min and Max in dist.go)

The nested `for i … for j …` scans visit the index pairs `(i, j)`, `i, j <
len(d.Names)`, in row-major order; they are embedded as a left fold over that
pair sequence.  The update conditions are the source's strict comparisons, so
ties keep the first occurrence. -/

/-- All index pairs `(i, j)` with `i, j < n` in row-major order. -/
def pairsRM (n : ℕ) : List (ℕ × ℕ) :=
  ((List.range n).map (fun i => (List.range n).map (fun j => (i, j)))).flatten

/-- Method `Min` of dist.go: `min` starts at `math.MaxFloat64`; each
off-diagonal cell strictly smaller than the current minimum replaces it
together with its indices. -/
def DistMat.Min (d : DistMat) : ℚ × ℕ × ℕ :=
  let n := d.Names.length
  (pairsRM n).foldl
    (fun acc p =>
      if p.1 ≠ p.2 then
        if getCell d.Matrix p.1 p.2 < acc.1 then (getCell d.Matrix p.1 p.2, p.1, p.2)
        else acc
      else acc)
    (maxFloat64, 0, 0)

/-- Method `Max` of dist.go: `max` starts at `-math.MaxFloat64`; each
off-diagonal cell strictly greater than the current maximum replaces it
together with its indices. -/
def DistMat.Max (d : DistMat) : ℚ × ℕ × ℕ :=
  let n := d.Names.length
  (pairsRM n).foldl
    (fun acc p =>
      if p.1 ≠ p.2 then
        if acc.1 < getCell d.Matrix p.1 p.2 then (getCell d.Matrix p.1 p.2, p.1, p.2)
        else acc
      else acc)
    (-maxFloat64, 0, 0)

/-- The loop body of `Min`, as a named function for the proofs. -/
def minStep (d : DistMat) : ℚ × ℕ × ℕ → ℕ × ℕ → ℚ × ℕ × ℕ := fun acc p =>
  if p.1 ≠ p.2 then
    if getCell d.Matrix p.1 p.2 < acc.1 then (getCell d.Matrix p.1 p.2, p.1, p.2)
    else acc
  else acc

/-- The loop body of `Max`, as a named function for the proofs. -/
def maxStep (d : DistMat) : ℚ × ℕ × ℕ → ℕ × ℕ → ℚ × ℕ × ℕ := fun acc p =>
  if p.1 ≠ p.2 then
    if acc.1 < getCell d.Matrix p.1 p.2 then (getCell d.Matrix p.1 p.2, p.1, p.2)
    else acc
  else acc

/- ## Character classes and tokenization -/

/-- The characters of `"1234567890"`, as used by `strings.IndexAny` in the
scanner's line-skipping loop. -/
def isDigitB (c : Char) : Bool :=
  decide ('0' ≤ c ∧ c ≤ '9')

/-- Go's `unicode.IsSpace` restricted to the ASCII range (space, tab,
newline, vertical tab, form feed, carriage return); non-ASCII Unicode spaces
are not modelled, and none occurs in any input considered here. -/
def isSpaceGo (c : Char) : Bool :=
  decide (c = ' ' ∨ c = '\t' ∨ c = '\n' ∨ c = '\r' ∨ c.toNat = 11 ∨ c.toNat = 12)

/-- Word accumulator for `fields`: `acc` holds the reversed characters of the
word currently being read. -/
def fieldsAux (acc : List Char) : List Char → List (List Char)
  | [] => if acc = [] then [] else [acc.reverse]
  | c :: cs =>
    if isSpaceGo c then
      if acc = [] then fieldsAux [] cs
      else acc.reverse :: fieldsAux [] cs
    else fieldsAux (c :: acc) cs

/-- `strings.Fields`: split around runs of white space. -/
def fields (cs : List Char) : List (List Char) :=
  fieldsAux [] cs

/-- `strings.TrimRight(l, "\r\n")`: drop trailing carriage returns and
newlines. -/
def trimRight (cs : List Char) : List Char :=
  (cs.reverse.dropWhile (fun c => decide (c = '\r' ∨ c = '\n'))).reverse

/- ## Numeric conversions -/

/-- Accumulate a run of decimal digit characters into a number, most
significant first. -/
def parseDigitsLoop (acc : ℕ) : List Char → ℕ
  | [] => acc
  | c :: cs => parseDigitsLoop (acc * 10 + (c.toNat - 48)) cs

/-- An optional leading sign: the consumed-sign flag (negative?) and the
remaining characters. -/
def parseSign (cs : List Char) : Bool × List Char :=
  match cs with
  | c :: r => if c = '+' then (false, r) else if c = '-' then (true, r) else (false, c :: r)
  | [] => (false, [])

/-- `strconv.Atoi`: an optional sign followed by one or more decimal digits,
nothing else.  (Go's `int` overflow bound is not modelled; header counts are
tiny.) -/
def atoi (cs : List Char) : Option ℤ :=
  let p := parseSign cs
  if p.2 ≠ [] ∧ p.2.all isDigitB then
    some ((if p.1 then -1 else 1) * (parseDigitsLoop 0 p.2 : ℤ))
  else none

/-- Exponent suffix of a decimal float literal: optional sign and one or more
digits, consuming the rest of the token. -/
def parseExp (sgn mant : ℚ) (r : List Char) : Option ℚ :=
  let p := parseSign r
  if p.2 ≠ [] ∧ p.2.all isDigitB then
    some (sgn * mant * (10 : ℚ) ^ ((if p.1 then -1 else 1) * (parseDigitsLoop 0 p.2 : ℤ)))
  else none

/-- After the integral digits: a `.` opens the fraction, whose digits and
remainder are returned; anything else leaves the fraction empty. -/
def floatSplitFrac : List Char → List Char × List Char
  | [] => ([], [])
  | c :: r => if c = '.' then (r.takeWhile isDigitB, r.dropWhile isDigitB) else ([], c :: r)

/-- What follows the mantissa: nothing, or an `e`/`E` exponent suffix. -/
def floatTail (sgn mant : ℚ) : List Char → Option ℚ
  | [] => some (sgn * mant)
  | c :: r => if c = 'e' ∨ c = 'E' then parseExp sgn mant r else none

/-- The sign-free part of the float grammar: digits with an optional fraction
(at least one digit overall), then an optional `e`/`E` exponent. -/
def parseFloatCore (neg : Bool) (cs : List Char) : Option ℚ :=
  let ip := cs.takeWhile isDigitB
  let fp := floatSplitFrac (cs.dropWhile isDigitB)
  if ip ++ fp.1 = [] then none
  else floatTail (if neg then -1 else 1)
    ((parseDigitsLoop 0 (ip ++ fp.1) : ℚ) / 10 ^ fp.1.length) fp.2

/-- `strconv.ParseFloat` on the plain decimal grammar: optional sign, digits
with an optional fraction (at least one digit overall), optional `e`/`E`
exponent.  Values are exact rationals; the binary float64 rounding that Go
applies on top of this grammar, as well as hexadecimal floats, `Inf`/`NaN`
forms and digit-separating underscores, are outside the model (no claim
depends on them). -/
def parseFloat (cs : List Char) : Option ℚ :=
  let p := parseSign cs
  parseFloatCore p.1 p.2

/- ## The Scanner (type Scanner, functions NewScanner, Scan, DistanceMatrix) -/

/-- `bufio.Reader.ReadString('\n')`: the data read up to and including the
first newline, whether an error (end of stream before a newline) occurred,
and the unread remainder.  At end of stream the data read so far is returned
together with the error. -/
def readString : List Char → List Char × Bool × List Char
  | [] => ([], true, [])
  | c :: cs =>
    if c = '\n' then ([c], false, cs)
    else
      let r := readString cs
      (c :: r.1, r.2.1, r.2.2)

/-- The scanner's line-skipping loop: read lines until one contains a decimal
digit or reading fails.  Returns the last line read, the error flag, and the
unread remainder.  The loop is fuel-indexed to stay structurally recursive;
every successful read consumes at least one character, so the fuel
`input.length + 1` supplied by `Scan` is never exhausted (the zero-fuel branch
is unreachable and returns the current read). -/
def skipNoDigit : ℕ → List Char → List Char × Bool × List Char
  | 0, cs => readString cs
  | fuel + 1, cs =>
    let r := readString cs
    if r.2.1 = false ∧ r.1.any isDigitB = false then skipNoDigit fuel r.2.2
    else r

/-- The possible outcomes of one `Scan()` call: success, the unsuccessful
return on end of stream, process termination through `log.Fatalf`, and a
runtime panic (out-of-range slice index or `make` with negative size). -/
inductive ScanResult where
  | success
  | eof
  | fatal
  | fault
deriving Repr, DecidableEq

/-- A `DistMat` is read using a `Scanner` (struct `Scanner` in dist.go): the
buffered reader becomes the list of unread characters, and the held matrix
pointer (`nil` before the first allocation) becomes an `Option`. -/
structure Scanner where
  input : List Char
  mat : Option DistMat
deriving Repr, DecidableEq

/-- `NewScanner`: a scanner over the given input with no held matrix. -/
def NewScanner (cs : List Char) : Scanner :=
  ⟨cs, none⟩

/-- The inner loop `for j := 1; j <= n; j++` of `Scan`: parse the `j`-th
field of the current row into column `j-1`.  Accessing `fields[j]` for `j`
out of range panics in Go (`.fault`); a field `strconv.ParseFloat` rejects is
`log.Fatalf` (`.fatal`). -/
def scanRowCells (n : ℕ) (fs : List (List Char)) (i : ℕ) : ℕ → ℕ → DistMat → ScanResult × DistMat
  | 0, _, mat => (.success, mat)
  | fuel + 1, j, mat =>
    if j < fs.length then
      match parseFloat (fs.getD j []) with
      | none => (.fatal, mat)
      | some v => scanRowCells n fs i fuel (j + 1) ⟨setCell mat.Matrix i (j - 1) v, mat.Names⟩
    else (.fault, mat)

/-- The row loop `for i := 0; i < n; i++` of `Scan`: read a line (failure ends
the scan unsuccessfully), split it into fields (`fields[0]` panics on a line
with no fields), store the name, then parse the `n` distance fields. -/
def scanRows (n : ℕ) : ℕ → DistMat → List Char → ScanResult × DistMat × List Char
  | 0, mat, cs => (.success, mat, cs)
  | fuel + 1, mat, cs =>
    let r := readString cs
    if r.2.1 then (.eof, mat, r.2.2)
    else
      match fields r.1 with
      | [] => (.fault, mat, r.2.2)
      | name :: rest =>
        let mat1 : DistMat := ⟨mat.Matrix, mat.Names.set (n - (fuel + 1)) (String.mk name)⟩
        match scanRowCells n (name :: rest) (n - (fuel + 1)) n 1 mat1 with
        | (.success, mat2) => scanRows n fuel mat2 r.2.2
        | (res, mat2) => (res, mat2, r.2.2)

/-- `Scan` of dist.go: skip digit-free lines, parse the header as the taxon
count (`strconv.Atoi` failure is `log.Fatalf`), allocate a fresh matrix —
replacing the held one — and read `n` data rows.  `make` with a negative
count panics in Go, hence the `.fault` guard. -/
def Scanner.Scan (s : Scanner) : ScanResult × Scanner :=
  let r := skipNoDigit (s.input.length + 1) s.input
  if r.2.1 then (.eof, ⟨r.2.2, s.mat⟩)
  else
    match atoi (trimRight r.1) with
    | none => (.fatal, ⟨r.2.2, s.mat⟩)
    | some n =>
      if n < 0 then (.fault, ⟨r.2.2, s.mat⟩)
      else
        let res := scanRows n.toNat n.toNat (NewDistMat n.toNat) r.2.2
        (res.1, ⟨res.2.2, some res.2.1⟩)

/-- `DistanceMatrix` of dist.go: the last `DistMat` scanned. -/
def Scanner.DistanceMatrix (s : Scanner) : Option DistMat :=
  s.mat

/- ## Rendering (method String in dist.go)

`String` prints the taxon count, then one line per taxon: the name followed by
the `n` distances formatted with `fmt`'s `%.3g` verb (3 significant digits,
shortest of fixed/scientific notation, trailing zeros removed) and laid out by
`text/tabwriter` with a two-space minimum gutter.  The column alignment is a
presentation detail (spec §6: re-parsing relies on whitespace-delimited
tokenization only), so the tab expansion is modelled as a two-space
separator. -/

/-- The character for a decimal digit. -/
def digitToChar (d : ℕ) : Char :=
  Char.ofNat (48 + d % 10)

/-- Decimal rendering of a natural number, most significant digit first. -/
def natToChars (n : ℕ) : List Char :=
  if n = 0 then ['0'] else ((Nat.digits 10 n).reverse).map digitToChar

/-- Drop trailing zero digits (`%g` removes trailing zeros in the fraction). -/
def stripTrailingZeros (ds : List ℕ) : List ℕ :=
  (ds.reverse.dropWhile (fun d => d = 0)).reverse

/-- `%g` prints exponents with at least two digits. -/
def padTwo (cs : List Char) : List Char :=
  if cs.length < 2 then '0' :: cs else cs

/-- A fraction part: empty, or a decimal point followed by its digits. -/
def fracPart (fr : List ℕ) : List Char :=
  if fr = [] then [] else '.' :: fr.map digitToChar

/-- The sign, three-digit mantissa `m` (`0` or `100 ≤ m ≤ 999`) and decimal
exponent `e` of a rational rounded to three significant digits, so that the
rounded value is `±(m/100)·10^e`.  This is the decimal data `%.3g` prints. -/
def sig3 (q : ℚ) : Bool × ℕ × ℤ :=
  if q = 0 then (false, 0, 0)
  else
    let a := |q|
    let e := Int.log 10 a
    let m := round (a * (10 : ℚ) ^ (2 - e))
    if m = 1000 then (q < 0, 100, e + 1) else (q < 0, m.toNat, e)

/-- The value `%.3g` displays: the input rounded to three significant
digits. -/
def roundSig3 (q : ℚ) : ℚ :=
  let t := sig3 q
  (if t.1 then -1 else 1) * (t.2.1 : ℚ) / 100 * (10 : ℚ) ^ t.2.2

/-- `fmt`'s `%.3g` verb on the exact decimal data of `sig3`: scientific
notation `d[.dd]e±XX` for decimal exponents below −4 or at least 3, plain
fixed notation otherwise, trailing fraction zeros removed. -/
def fmtG3 (q : ℚ) : List Char :=
  let t := sig3 q
  let m := t.2.1
  let e := t.2.2
  if m = 0 then ['0']
  else
    let d2 := m / 100
    let d1 := m / 10 % 10
    let d0 := m % 10
    let sign : List Char := if t.1 then ['-'] else []
    if e < -4 ∨ 3 ≤ e then
      sign ++ digitToChar d2 :: fracPart (stripTrailingZeros [d1, d0])
        ++ 'e' :: (if e < 0 then '-' else '+') :: padTwo (natToChars e.natAbs)
    else if 0 ≤ e then
      sign ++ ([d2, d1, d0].take (e.toNat + 1)).map digitToChar
        ++ fracPart (stripTrailingZeros ([d2, d1, d0].drop (e.toNat + 1)))
    else
      sign ++ '0' :: '.' :: List.replicate (e.natAbs - 1) '0'
        ++ (stripTrailingZeros [d2, d1, d0]).map digitToChar

/-- Method `String` of dist.go (named `render` here because `String` is the
Lean string type): the header line with the taxon count, then for each `i <
n` the name `d.Names[i]` and the cells `d.Matrix[i][j]`, `j < n`, each
preceded by the column gutter. -/
def DistMat.render (d : DistMat) : List Char :=
  let n := d.Matrix.length
  natToChars n ++ '\n' ::
    ((List.range n).map (fun i =>
      (d.Names.getD i "").data
        ++ ((List.range n).map (fun j => ' ' :: ' ' :: fmtG3 (getCell d.Matrix i j))).flatten
        ++ ['\n'])).flatten

/-- A concrete two-taxon PHYLIP stream used to exhibit the round trip. -/
def w9in : List Char :=
  ("2\nA 1 2\nB 3 4\n").data

/- # Auxiliary list lemmas -/

theorem getD_eq_getElem (l : List α) (d : α) {i : ℕ} (h : i < l.length) :
    l.getD i d = l[i] := by
  simp [List.getD_eq_getElem?_getD, List.getElem?_eq_getElem h]

theorem getD_set_self (l : List α) {i : ℕ} (a d : α) (h : i < l.length) :
    (l.set i a).getD i d = a := by
  simp [List.getD_eq_getElem?_getD, List.getElem?_set_self h]

theorem getD_set_ne (l : List α) {i j : ℕ} (h : i ≠ j) (a d : α) :
    (l.set i a).getD j d = l.getD j d := by
  simp [List.getD_eq_getElem?_getD, List.getElem?_set_ne h]

theorem take_set_of_ge (l : List α) {j m : ℕ} (h : j ≤ m) (a : α) :
    (l.set m a).take j = l.take j := by
  rcases Nat.lt_or_ge j l.length with hj | hj
  · rcases Nat.lt_or_ge m l.length with hm | hm
    · apply List.ext_getElem
      · simp
      · intro k h1 h2
        simp only [List.getElem_take]
        rw [List.getElem_set_ne]
        simp only [List.length_take] at h1
        omega
    · rw [List.set_eq_of_length_le hm]
  · rw [List.set_eq_of_length_le (by omega)]

theorem take_succ_set (l : List α) {j : ℕ} (x : α) (h : j < l.length) :
    (l.set j x).take (j + 1) = l.take j ++ [x] := by
  apply List.ext_getElem
  · simp; omega
  · intro k h1 h2
    simp only [List.length_take, List.length_set] at h1
    rcases Nat.lt_or_ge k j with hk | hk
    · rw [List.getElem_take, List.getElem_set_ne (by omega),
        List.getElem_append_left (by simp; omega), List.getElem_take]
    · have hkj : k = j := by omega
      subst hkj
      rw [List.getElem_take, List.getElem_set_self,
        List.getElem_append_right (by simp)]
      simp

theorem getD_eraseIdx (l : List α) {k : ℕ} (hk : k < l.length) (i : ℕ) (d : α) :
    (l.eraseIdx k).getD i d = if i < k then l.getD i d else l.getD (i + 1) d := by
  simp only [List.getD_eq_getElem?_getD, List.getElem?_eraseIdx]
  split <;> rfl

theorem length_eraseIdx_of_lt (l : List α) {k : ℕ} (hk : k < l.length) :
    (l.eraseIdx k).length = l.length - 1 := by
  simp [List.length_eraseIdx, hk]

/- # The compaction-loop specification -/

/-- `keptSeg` distributes over the iteration count. -/
theorem keptSeg_add (keep : ℕ → Bool) (dflt : α) (orig : List α) :
    ∀ (a : ℕ) (i b : ℕ),
      keptSeg keep dflt orig i (a + b) =
        keptSeg keep dflt orig i a ++ keptSeg keep dflt orig (i + a) b := by
  intro a
  induction a with
  | zero => intro i b; simp [keptSeg]
  | succ a ih =>
    intro i b
    have h1 : a + 1 + b = (a + b) + 1 := by omega
    have h2 : i + (a + 1) = (i + 1) + a := by omega
    rw [h1]
    by_cases hk : keep i = true
    · simp only [keptSeg, if_pos hk, h2, ih (i + 1) b, List.cons_append]
    · simp only [keptSeg, if_neg hk, h2, ih (i + 1) b]

/-- A fully kept segment is a slice of the original list. -/
theorem keptSeg_all_kept (keep : ℕ → Bool) (dflt : α) (orig : List α) :
    ∀ (rem i : ℕ), i + rem ≤ orig.length → (∀ t, t < rem → keep (i + t)) →
      keptSeg keep dflt orig i rem = (orig.drop i).take rem := by
  intro rem
  induction rem with
  | zero => simp [keptSeg]
  | succ rem ih =>
    intro i hlen hkeep
    have hi : i < orig.length := by omega
    have h0 : keep i = true := by simpa using hkeep 0 (by omega)
    rw [keptSeg, if_pos h0, List.drop_eq_getElem_cons hi, List.take_succ_cons,
      getD_eq_getElem _ _ hi, ih (i + 1) (by omega)
        (fun t ht => by
          have h3 : i + 1 + t = i + (t + 1) := by omega
          rw [h3]; exact hkeep (t + 1) (by omega))]

/-- The compaction loop writes exactly the kept elements, in order, to the
front of the slice: the general invariant of the in-place pattern. -/
theorem compactLoop_spec (keep : ℕ → Bool) (dflt : α) :
    ∀ (rem i j : ℕ) (cur orig : List α),
      cur.length = orig.length →
      i + rem = orig.length →
      j ≤ i →
      (∀ k, i ≤ k → cur.getD k dflt = orig.getD k dflt) →
      (compactLoop keep dflt rem i j cur).1 =
          j + (keptSeg keep dflt orig i rem).length ∧
        (compactLoop keep dflt rem i j cur).2.length = orig.length ∧
        (compactLoop keep dflt rem i j cur).2.take (compactLoop keep dflt rem i j cur).1 =
          cur.take j ++ keptSeg keep dflt orig i rem := by
  intro rem
  induction rem with
  | zero =>
    intro i j cur orig hlen hsum hji hagree
    simp [compactLoop, keptSeg, hlen]
  | succ rem ih =>
    intro i j cur orig hlen hsum hji hagree
    have hi : i < orig.length := by omega
    have hjcur : j < cur.length := by omega
    by_cases hk : keep i = true
    · rw [compactLoop, if_pos hk, keptSeg, if_pos hk]
      have hread : cur.getD i dflt = orig.getD i dflt := hagree i (Nat.le_refl i)
      have := ih (i + 1) (j + 1) (cur.set j (cur.getD i dflt)) orig
        (by simpa using hlen)
        (by omega) (by omega)
        (fun k hkk => by
          rw [getD_set_ne _ (by omega)]
          exact hagree k (by omega))
      obtain ⟨h1, h2, h3⟩ := this
      refine ⟨by rw [h1]; simp [List.length_cons]; omega, h2, ?_⟩
      rw [h3, hread, take_succ_set _ _ hjcur]
      simp
    · rw [compactLoop, if_neg hk, keptSeg, if_neg hk]
      exact ih (i + 1) j cur orig hlen (by omega) (by omega)
        (fun k hkk => hagree k (by omega))

/-- Full-run corollary of `compactLoop_spec`: starting the loop on the whole
list, the first `count` positions of the result are exactly the kept
elements. -/
theorem compactLoop_full (keep : ℕ → Bool) (dflt : α) (orig : List α) :
    (compactLoop keep dflt orig.length 0 0 orig).2.take
        (compactLoop keep dflt orig.length 0 0 orig).1 =
      keptSeg keep dflt orig 0 orig.length := by
  have := compactLoop_spec keep dflt orig.length 0 0 orig orig rfl (by omega)
    (Nat.le_refl 0) (fun k _ => rfl)
  simpa using this.2.2

/-- Deleting one index: the kept segment for the predicate `≠ k` is
`eraseIdx k`. -/
theorem keptSeg_erase_one (dflt : α) (orig : List α) {k : ℕ} (hk : k < orig.length) :
    keptSeg (fun i => decide ((i : ℤ) ≠ (k : ℤ))) dflt orig 0 orig.length =
      orig.eraseIdx k := by
  have hsplit : orig.length = k + (orig.length - k) := by omega
  rw [hsplit, keptSeg_add]
  have h1 : keptSeg (fun i => decide ((i : ℤ) ≠ (k : ℤ))) dflt orig 0 k = orig.take k := by
    rw [keptSeg_all_kept _ _ _ k 0 (by omega)
      (fun t ht => by simp; omega)]
    simp
  have h2 : orig.length - k = (orig.length - k - 1) + 1 := by omega
  rw [h1, Nat.zero_add, h2, keptSeg, if_neg (by simp)]
  rw [keptSeg_all_kept _ _ _ _ _ (by omega) (fun t ht => by simp; omega)]
  have h3 : (orig.drop (k + 1)).take (orig.length - k - 1) = orig.drop (k + 1) :=
    List.take_of_length_le (by rw [List.length_drop]; omega)
  rw [h3, List.eraseIdx_eq_take_drop_succ]

/-- Deleting two indices `a < b`: the kept segment for the predicate
`≠ a ∧ ≠ b` is `eraseIdx b` then `eraseIdx a`. -/
theorem keptSeg_erase_two (dflt : α) (orig : List α) {a b : ℕ} (hab : a < b)
    (hb : b < orig.length) :
    keptSeg (fun i => decide ((i : ℤ) ≠ (a : ℤ) ∧ (i : ℤ) ≠ (b : ℤ))) dflt orig 0
        orig.length =
      (orig.eraseIdx b).eraseIdx a := by
  set keep := fun i : ℕ => decide ((i : ℤ) ≠ (a : ℤ) ∧ (i : ℤ) ≠ (b : ℤ)) with hkeep
  have hsplit : orig.length = a + (1 + ((b - a - 1) + (1 + (orig.length - b - 1)))) := by
    omega
  rw [hsplit, keptSeg_add, keptSeg_add, keptSeg_add, keptSeg_add]
  have h1 : keptSeg keep dflt orig 0 a = orig.take a := by
    rw [keptSeg_all_kept _ _ _ a 0 (by omega) (fun t ht => by simp [hkeep]; omega)]
    simp
  have h2 : keptSeg keep dflt orig (0 + a) 1 = [] := by
    simp only [keptSeg, Nat.zero_add]
    rw [if_neg (by simp [hkeep])]
  have h3 : keptSeg keep dflt orig (0 + a + 1) (b - a - 1) =
      (orig.drop (a + 1)).take (b - a - 1) := by
    rw [keptSeg_all_kept _ _ _ _ _ (by omega) (fun t ht => by simp [hkeep]; omega)]
    norm_num
  have h4 : keptSeg keep dflt orig (0 + a + 1 + (b - a - 1)) 1 = [] := by
    have hba : 0 + a + 1 + (b - a - 1) = b := by omega
    rw [hba]
    simp only [keptSeg]
    rw [if_neg (by simp [hkeep])]
  have h5 : keptSeg keep dflt orig (0 + a + 1 + (b - a - 1) + 1) (orig.length - b - 1) =
      orig.drop (b + 1) := by
    have hba : 0 + a + 1 + (b - a - 1) + 1 = b + 1 := by omega
    rw [hba, keptSeg_all_kept _ _ _ _ _ (by omega) (fun t ht => by simp [hkeep]; omega)]
    exact List.take_of_length_le (by rw [List.length_drop]; omega)
  rw [h1, h2, h3, h4, h5]
  rw [List.eraseIdx_eq_take_drop_succ, List.eraseIdx_eq_take_drop_succ]
  rw [List.take_append_of_le_length (by rw [List.length_take]; omega)]
  rw [List.drop_append_of_le_length (by rw [List.length_take]; omega)]
  rw [List.take_take, List.drop_take]
  simp only [List.nil_append, List.append_assoc]
  rw [inf_eq_left.mpr (Nat.le_of_lt hab), Nat.sub_sub]

/- # Cell-level lemmas for setCell/getCell -/

theorem length_setCell (m : List (List ℚ)) (i j : ℕ) (v : ℚ) :
    (setCell m i j v).length = m.length := by
  simp [setCell]

theorem row_length_setCell (m : List (List ℚ)) (i j : ℕ) (v : ℚ) (r : ℕ) :
    ((setCell m i j v).getD r []).length = (m.getD r []).length := by
  by_cases h : i = r
  · subst h
    by_cases hl : i < m.length
    · rw [setCell, getD_set_self _ _ _ hl, List.length_set]
    · rw [setCell, List.set_eq_of_length_le (by omega)]
  · rw [setCell, getD_set_ne _ h]

theorem getCell_setCell_ne_row (m : List (List ℚ)) {i r : ℕ} (h : i ≠ r) (j c : ℕ) (v : ℚ) :
    getCell (setCell m i j v) r c = getCell m r c := by
  rw [getCell, setCell, getD_set_ne _ h, getCell]

theorem getCell_setCell_ne_col (m : List (List ℚ)) (i : ℕ) {j c : ℕ} (h : j ≠ c) (v : ℚ) :
    getCell (setCell m i j v) i c = getCell m i c := by
  by_cases hl : i < m.length
  · rw [getCell, setCell, getD_set_self _ _ _ hl, getD_set_ne _ h, getCell]
  · rw [setCell, List.set_eq_of_length_le (by omega)]

theorem getCell_setCell_self (m : List (List ℚ)) {i j : ℕ} (hi : i < m.length)
    (hj : j < (m.getD i []).length) (v : ℚ) :
    getCell (setCell m i j v) i j = v := by
  rw [getCell, setCell, getD_set_self _ _ _ hi, getD_set_self _ _ _ hj]

/- # The Delete matrix loops: invariants -/

/-- Invariant of the inner column-compaction loop of `Delete`: it rewrites the
first `n-1` cells of row `ii` with the surviving cells of row `i` (skipping
column `k`), touching nothing else.  All comparisons are against a fixed
baseline `m₀`; since writes go to positions at or below the read position,
every read still sees the baseline value. -/
theorem delMatInner_spec (k n i ii : ℕ) (m₀ : List (List ℚ)) (hk : k < n) (hi : i < n)
    (hiin : ii ≤ i) (hlen0 : ii < m₀.length) (hrow0 : (m₀.getD ii []).length = n) :
    ∀ (fuel j jj : ℕ) (m : List (List ℚ)),
      fuel + j = n →
      jj + (if k < j then 1 else 0) = j →
      m.length = m₀.length →
      (∀ r, (m.getD r []).length = (m₀.getD r []).length) →
      (∀ r, r ≠ ii → ∀ c, getCell m r c = getCell m₀ r c) →
      (∀ c, jj ≤ c → getCell m ii c = getCell m₀ ii c) →
      (∀ c, c < jj → getCell m ii c = getCell m₀ i (if c < k then c else c + 1)) →
      (delMatInner (k : ℤ) i ii fuel j jj m).length = m₀.length ∧
        (∀ r, ((delMatInner (k : ℤ) i ii fuel j jj m).getD r []).length =
          (m₀.getD r []).length) ∧
        (∀ r, r ≠ ii → ∀ c,
          getCell (delMatInner (k : ℤ) i ii fuel j jj m) r c = getCell m₀ r c) ∧
        (∀ c, n - 1 ≤ c →
          getCell (delMatInner (k : ℤ) i ii fuel j jj m) ii c = getCell m₀ ii c) ∧
        (∀ c, c < n - 1 →
          getCell (delMatInner (k : ℤ) i ii fuel j jj m) ii c =
            getCell m₀ i (if c < k then c else c + 1)) := by
  intro fuel
  induction fuel with
  | zero =>
    intro j jj m hsum h2 hml hrl hother hhigh hlow
    have hjn : j = n := by omega
    have hjj : jj = n - 1 := by
      rw [if_pos (by omega)] at h2; omega
    exact ⟨hml, hrl, hother,
      fun c hc => hhigh c (by omega), fun c hc => hlow c (by omega)⟩
  | succ fuel ih =>
    intro j jj m hsum h2 hml hrl hother hhigh hlow
    have hjn : j < n := by omega
    have hjjle : jj ≤ j := by
      rcases Nat.lt_or_ge k j with h | h
      · rw [if_pos h] at h2; omega
      · rw [if_neg (by omega)] at h2; omega
    by_cases hjk : j = k
    · rw [delMatInner, if_pos (by exact_mod_cast hjk)]
      apply ih (j + 1) jj m (by omega) ?_ hml hrl hother hhigh hlow
      rw [if_pos (by omega)]
      rw [if_neg (by omega)] at h2
      omega
    · rw [delMatInner, if_neg (by exact_mod_cast hjk)]
      have hread : getCell m i j = getCell m₀ i j := by
        by_cases hii : i = ii
        · subst hii; exact hhigh j hjjle
        · exact hother i (by omega) j
      apply ih (j + 1) (jj + 1) (setCell m ii jj (getCell m i j))
      · omega
      · rcases Nat.lt_or_ge k j with h | h
        · rw [if_pos h] at h2
          rw [if_pos (by omega)]
          omega
        · rw [if_neg (by omega)] at h2
          rw [if_neg (by omega)]
          omega
      · rw [length_setCell]; exact hml
      · intro r; rw [row_length_setCell]; exact hrl r
      · intro r hr c
        rw [getCell_setCell_ne_row _ (by omega)]
        exact hother r hr c
      · intro c hc
        rw [getCell_setCell_ne_col _ _ (by omega)]
        exact hhigh c (by omega)
      · intro c hc
        rcases Nat.lt_or_ge c jj with hcl | hcg
        · rw [getCell_setCell_ne_col _ _ (by omega)]
          exact hlow c hcl
        · have hcjj : c = jj := by omega
          subst hcjj
          rw [hread, getCell_setCell_self _ (by omega) (by rw [hrl ii, hrow0]; omega)]
          rcases Nat.lt_or_ge j k with h | h
          · rw [if_neg (by omega)] at h2
            rw [if_pos (by omega)]
            congr 1
            omega
          · rw [if_pos (by omega)] at h2
            rw [if_neg (by omega)]
            congr 1
            omega

/-- Invariant of the outer row loop of `Delete`: after the loop, the first
`n-1` rows hold, in their first `n-1` cells, the surviving cells of the
baseline matrix with row and column `k` skipped. -/
theorem delMatOuter_spec (k n : ℕ) (m₀ : List (List ℚ)) (hk : k < n) (hlen : m₀.length = n)
    (hsq : ∀ r, r < n → (m₀.getD r []).length = n) :
    ∀ (fuel i ii : ℕ) (m : List (List ℚ)),
      fuel + i = n →
      ii + (if k < i then 1 else 0) = i →
      m.length = m₀.length →
      (∀ r, (m.getD r []).length = (m₀.getD r []).length) →
      (∀ r, ii ≤ r → ∀ c, getCell m r c = getCell m₀ r c) →
      (∀ r, r < ii →
        (∀ c, c < n - 1 → getCell m r c =
          getCell m₀ (if r < k then r else r + 1) (if c < k then c else c + 1)) ∧
        (∀ c, n - 1 ≤ c → getCell m r c = getCell m₀ r c)) →
      (delMatOuter (k : ℤ) n fuel i ii m).length = m₀.length ∧
        (∀ r, ((delMatOuter (k : ℤ) n fuel i ii m).getD r []).length =
          (m₀.getD r []).length) ∧
        (∀ r, r < n - 1 → ∀ c, c < n - 1 →
          getCell (delMatOuter (k : ℤ) n fuel i ii m) r c =
            getCell m₀ (if r < k then r else r + 1) (if c < k then c else c + 1)) := by
  intro fuel
  induction fuel with
  | zero =>
    intro i ii m hsum h2 hml hrl hhigh hdone
    have hii : ii = n - 1 := by
      rw [if_pos (by omega)] at h2; omega
    exact ⟨hml, hrl, fun r hr c hc => (hdone r (by omega)).1 c hc⟩
  | succ fuel ih =>
    intro i ii m hsum h2 hml hrl hhigh hdone
    have hin : i < n := by omega
    have hiile : ii ≤ i := by
      rcases Nat.lt_or_ge k i with h | h
      · rw [if_pos h] at h2; omega
      · rw [if_neg (by omega)] at h2; omega
    by_cases hik : i = k
    · rw [delMatOuter, if_pos (by exact_mod_cast hik)]
      apply ih (i + 1) ii m (by omega) ?_ hml hrl hhigh hdone
      rw [if_neg (by omega)] at h2
      rw [if_pos (by omega)]
      omega
    · rw [delMatOuter, if_neg (by exact_mod_cast hik)]
      have hinner := delMatInner_spec k n i ii m hk hin hiile
        (by omega) (by rw [hrl ii]; exact hsq ii (by omega)) n 0 0 m
        (by omega) (by rw [if_neg (by omega)]) rfl (fun r => rfl)
        (fun r _ c => rfl) (fun c _ => rfl) (fun c hc => absurd hc (by omega))
      obtain ⟨hin1, hin2, hin3, hin4, hin5⟩ := hinner
      apply ih (i + 1) (ii + 1) (delMatInner (k : ℤ) i ii n 0 0 m)
      · omega
      · rcases Nat.lt_or_ge k i with h | h
        · rw [if_pos h] at h2
          rw [if_pos (by omega)]
          omega
        · have h4 : ¬ k < i := by omega
          rw [if_neg h4] at h2
          have h5 : ¬ k < i + 1 := by omega
          rw [if_neg h5]
          omega
      · rw [hin1]; exact hml
      · intro r; rw [hin2 r]; exact hrl r
      · intro r hr c
        rw [hin3 r (by omega) c]
        exact hhigh r (by omega) c
      · intro r hr
        rcases Nat.lt_or_ge r ii with hrl2 | hrg
        · exact ⟨fun c hc => by rw [hin3 r (by omega) c]; exact (hdone r hrl2).1 c hc,
            fun c hc => by rw [hin3 r (by omega) c]; exact (hdone r hrl2).2 c hc⟩
        · have hrii : r = ii := by omega
          subst hrii
          constructor
          · intro c hc
            rw [hin5 c hc, hhigh i hiile]
            have hsel : (if r < k then r else r + 1) = i := by
              rcases Nat.lt_or_ge k i with h | h
              · rw [if_pos h] at h2
                have h3 : ¬ r < k := by omega
                rw [if_neg h3]
                omega
              · have h4 : ¬ k < i := by omega
                rw [if_neg h4] at h2
                have h3 : r < k := by omega
                rw [if_pos h3]
                omega
            rw [hsel]
          · intro c hc
            rw [hin4 c hc]
            exact hhigh r (by omega) c

/- # getD transport lemmas and matrix extensionality -/

theorem getD_take (l : List α) {n r : ℕ} (h1 : r < n) (d : α) :
    (l.take n).getD r d = l.getD r d := by
  rcases Nat.lt_or_ge r l.length with h2 | h2
  · rw [getD_eq_getElem _ _ (h := by rw [List.length_take]; omega), List.getElem_take,
      getD_eq_getElem _ _ h2]
  · rw [List.getD_eq_default _ _ (by rw [List.length_take]; omega),
      List.getD_eq_default _ _ h2]

theorem getD_map (f : α → β) (l : List α) (dl : α) {r : ℕ} (h : r < l.length) (d : β) :
    (l.map f).getD r d = f (l.getD r dl) := by
  rw [getD_eq_getElem _ _ (h := by simpa using h), List.getElem_map,
    getD_eq_getElem _ _ h]

/-- Two row lists are equal when they agree in length, row lengths, and cells
(read through defaults). -/
theorem mat_ext_getD (A B : List (List ℚ)) (hlen : A.length = B.length)
    (hrow : ∀ r, r < A.length → (A.getD r []).length = (B.getD r []).length)
    (hcell : ∀ r c, r < A.length → c < (A.getD r []).length →
      (A.getD r []).getD c 0 = (B.getD r []).getD c 0) :
    A = B := by
  apply List.ext_getElem hlen
  intro r h1 h2
  apply List.ext_getElem
  · have := hrow r h1
    rwa [getD_eq_getElem _ _ h1, getD_eq_getElem _ _ h2] at this
  · intro c hc1 hc2
    have := hcell r c h1 (by rwa [getD_eq_getElem _ _ h1])
    rwa [getD_eq_getElem _ _ h1, getD_eq_getElem _ _ h2,
      getD_eq_getElem _ _ hc1, getD_eq_getElem _ _ hc2] at this

/- # The Delete characterization -/

/-- For an in-range index, `Delete` removes exactly the `k`-th name and the
`k`-th row and column. -/
theorem Delete_eq (d : DistMat) (k : ℕ) (hk : k < d.Names.length)
    (hmn : d.Matrix.length = d.Names.length)
    (hsq : ∀ r ∈ d.Matrix, r.length = d.Matrix.length) :
    d.Delete (k : ℤ) =
      ⟨(d.Matrix.eraseIdx k).map (fun r => r.eraseIdx k), d.Names.eraseIdx k⟩ := by
  have hkn : k < d.Matrix.length := by omega
  have hsq' : ∀ r, r < d.Matrix.length → (d.Matrix.getD r []).length = d.Matrix.length := by
    intro r hr
    rw [getD_eq_getElem _ _ (by omega)]
    exact hsq _ (List.getElem_mem (by omega))
  have houter := delMatOuter_spec k d.Matrix.length d.Matrix hkn rfl hsq'
    d.Matrix.length 0 0 d.Matrix
    (by omega) (by rw [if_neg (by omega)]) rfl (fun r => rfl)
    (fun r _ c => rfl) (fun r hr => absurd hr (by omega))
  obtain ⟨ho1, ho2, ho3⟩ := houter
  have hnames : (d.Delete (k : ℤ)).Names = d.Names.eraseIdx k := by
    show ((compactLoop (fun i => decide ((i : ℤ) ≠ (k : ℤ))) "" d.Names.length 0 0
      d.Names).2.take (compactLoop (fun i => decide ((i : ℤ) ≠ (k : ℤ))) ""
        d.Names.length 0 0 d.Names).1) = d.Names.eraseIdx k
    rw [compactLoop_full, keptSeg_erase_one _ _ hk]
  have hmat : (d.Delete (k : ℤ)).Matrix =
      (d.Matrix.eraseIdx k).map (fun r => r.eraseIdx k) := by
    show ((delMatOuter (k : ℤ) d.Matrix.length d.Matrix.length 0 0 d.Matrix).take
      (d.Matrix.length - 1)).map (fun row => row.take (d.Matrix.length - 1)) = _
    have hA : ∀ r, r < d.Matrix.length - 1 →
        (((delMatOuter (k : ℤ) d.Matrix.length d.Matrix.length 0 0 d.Matrix).take
          (d.Matrix.length - 1)).map (fun row => row.take (d.Matrix.length - 1))).getD r [] =
        ((delMatOuter (k : ℤ) d.Matrix.length d.Matrix.length 0 0 d.Matrix).getD r
          []).take (d.Matrix.length - 1) := by
      intro r hr
      rw [getD_map _ _ [] (by rw [List.length_take, ho1]; omega), getD_take _ (by omega)]
    have hB : ∀ r, r < d.Matrix.length - 1 →
        ((d.Matrix.eraseIdx k).map (fun rr => rr.eraseIdx k)).getD r [] =
        (if r < k then d.Matrix.getD r [] else d.Matrix.getD (r + 1) []).eraseIdx k := by
      intro r hr
      rw [getD_map _ _ [] (by rw [length_eraseIdx_of_lt _ (by omega)]; omega),
        getD_eraseIdx _ (by omega)]
    apply mat_ext_getD
    · rw [List.length_map, List.length_take, ho1, List.length_map,
        length_eraseIdx_of_lt _ (by omega)]
      omega
    · intro r hr
      rw [List.length_map, List.length_take, ho1] at hr
      have hr2 : r < d.Matrix.length - 1 := by
        have := Nat.min_le_left (d.Matrix.length - 1) d.Matrix.length
        omega
      rw [hA r hr2, hB r hr2, List.length_take, ho2 r, hsq' r (by omega)]
      rcases Nat.lt_or_ge r k with hrk | hrk
      · rw [if_pos hrk, length_eraseIdx_of_lt _ (by rw [hsq' r (by omega)]; omega),
          hsq' r (by omega)]
        omega
      · have hrk2 : ¬ r < k := by omega
        rw [if_neg hrk2, length_eraseIdx_of_lt _
          (by rw [hsq' (r + 1) (by omega)]; omega), hsq' (r + 1) (by omega)]
        omega
    · intro r c hr hc
      rw [List.length_map, List.length_take, ho1] at hr
      have hr2 : r < d.Matrix.length - 1 := by
        have := Nat.min_le_left (d.Matrix.length - 1) d.Matrix.length
        omega
      rw [hA r hr2] at hc
      rw [List.length_take] at hc
      have hc2 : c < d.Matrix.length - 1 := by
        have := Nat.min_le_left (d.Matrix.length - 1)
          ((delMatOuter (k : ℤ) d.Matrix.length d.Matrix.length 0 0 d.Matrix).getD r
            []).length
        omega
      rw [hA r hr2, hB r hr2, getD_take _ (by omega)]
      have hcell := ho3 r (by omega) c (by omega)
      rw [getCell, getCell] at hcell
      rw [hcell]
      rcases Nat.lt_or_ge r k with hrk | hrk
      · rw [if_pos hrk, if_pos hrk, getD_eraseIdx _ (by rw [hsq' r (by omega)]; omega)]
        rcases Nat.lt_or_ge c k with hck | hck
        · rw [if_pos hck, if_pos hck]
        · have hck2 : ¬ c < k := by omega
          rw [if_neg hck2, if_neg hck2]
      · have hrk2 : ¬ r < k := by omega
        rw [if_neg hrk2, if_neg hrk2,
          getD_eraseIdx _ (by rw [hsq' (r + 1) (by omega)]; omega)]
        rcases Nat.lt_or_ge c k with hck | hck
        · rw [if_pos hck, if_pos hck]
        · have hck2 : ¬ c < k := by omega
          rw [if_neg hck2, if_neg hck2]
  cases hd : d.Delete (k : ℤ)
  rw [hd] at hnames hmat
  simp only at hnames hmat
  rw [hnames, hmat]

/-- Deleting index `k` shifts surviving positions down past `k`. -/
theorem getD_erase_shift (l : List α) {k p : ℕ} (hk : k < l.length) (hp : p < l.length)
    (hpk : p ≠ k) (dflt : α) :
    (l.eraseIdx k).getD (if p < k then p else p - 1) dflt = l.getD p dflt := by
  rcases Nat.lt_or_ge p k with h | h
  · rw [if_pos h, getD_eraseIdx _ hk, if_pos h]
  · have h2 : ¬ p < k := by omega
    rw [if_neg h2, getD_eraseIdx _ hk]
    have h3 : ¬ p - 1 < k := by omega
    rw [if_neg h3]
    congr 1
    omega

/-- C5: deleting an in-range taxon `k` from an n×n `DistMat` yields an
(n-1)×(n-1) matrix and a name list of length n-1 equal to the original with
entry `k` removed (relative order preserved), and every entry between two
surviving taxa reappears at their shifted positions with its original
value. -/
theorem c5_delete_taxon (d : DistMat) (k : ℕ) (hk : k < d.Names.length)
    (hmn : d.Matrix.length = d.Names.length)
    (hsq : ∀ r ∈ d.Matrix, r.length = d.Matrix.length) :
    (d.Delete (k : ℤ)).Names = d.Names.eraseIdx k ∧
      (d.Delete (k : ℤ)).Names.length = d.Names.length - 1 ∧
      (d.Delete (k : ℤ)).Matrix.length = d.Names.length - 1 ∧
      (∀ row ∈ (d.Delete (k : ℤ)).Matrix, row.length = d.Names.length - 1) ∧
      (∀ p q, p < d.Names.length → q < d.Names.length → p ≠ k → q ≠ k →
        getCell (d.Delete (k : ℤ)).Matrix (if p < k then p else p - 1)
          (if q < k then q else q - 1) = getCell d.Matrix p q) := by
  rw [Delete_eq d k hk hmn hsq]
  refine ⟨rfl, ?_, ?_, ?_, ?_⟩
  · exact length_eraseIdx_of_lt _ hk
  · rw [List.length_map, length_eraseIdx_of_lt _ (by omega)]
    omega
  · intro row hrow
    obtain ⟨r, hr, rfl⟩ := List.mem_map.mp hrow
    have hrM : r ∈ d.Matrix := (List.eraseIdx_sublist _ _).mem hr
    rw [length_eraseIdx_of_lt _ (by rw [hsq r hrM]; omega), hsq r hrM, hmn]
  · intro p q hp hq hpk hqk
    have hkM : k < d.Matrix.length := by omega
    have hpM : p < d.Matrix.length := by omega
    have hrowlen : (d.Matrix.getD p []).length = d.Matrix.length := by
      rw [getD_eq_getElem _ _ hpM]
      exact hsq _ (List.getElem_mem hpM)
    rw [getCell, getCell,
      getD_map _ _ [] (by rw [length_eraseIdx_of_lt _ hkM]; split <;> omega),
      getD_erase_shift _ hkM hpM hpk,
      getD_erase_shift _ (by omega) (by omega) hqk]

/-- Witness for C5 at a concrete 3×3 matrix with `k = 1`. -/
theorem c5_witness :
    (1 < (DistMat.mk [[0, 1, 2], [3, 0, 4], [5, 6, 0]] ["A", "B", "C"]).Names.length ∧
      (DistMat.mk [[0, 1, 2], [3, 0, 4], [5, 6, 0]] ["A", "B", "C"]).Matrix.length =
        (DistMat.mk [[0, 1, 2], [3, 0, 4], [5, 6, 0]] ["A", "B", "C"]).Names.length ∧
      ∀ r ∈ (DistMat.mk [[0, 1, 2], [3, 0, 4], [5, 6, 0]] ["A", "B", "C"]).Matrix,
        r.length =
          (DistMat.mk [[0, 1, 2], [3, 0, 4], [5, 6, 0]] ["A", "B", "C"]).Matrix.length) ∧
    ((DistMat.mk [[0, 1, 2], [3, 0, 4], [5, 6, 0]] ["A", "B", "C"]).Delete
        ((1 : ℕ) : ℤ)).Names =
      (DistMat.mk [[0, 1, 2], [3, 0, 4], [5, 6, 0]] ["A", "B", "C"]).Names.eraseIdx 1 ∧
    ((DistMat.mk [[0, 1, 2], [3, 0, 4], [5, 6, 0]] ["A", "B", "C"]).Delete
        ((1 : ℕ) : ℤ)).Names.length =
      (DistMat.mk [[0, 1, 2], [3, 0, 4], [5, 6, 0]] ["A", "B", "C"]).Names.length - 1 ∧
    ((DistMat.mk [[0, 1, 2], [3, 0, 4], [5, 6, 0]] ["A", "B", "C"]).Delete
        ((1 : ℕ) : ℤ)).Matrix.length =
      (DistMat.mk [[0, 1, 2], [3, 0, 4], [5, 6, 0]] ["A", "B", "C"]).Names.length - 1 ∧
    (∀ row ∈ ((DistMat.mk [[0, 1, 2], [3, 0, 4], [5, 6, 0]] ["A", "B", "C"]).Delete
        ((1 : ℕ) : ℤ)).Matrix,
      row.length =
        (DistMat.mk [[0, 1, 2], [3, 0, 4], [5, 6, 0]] ["A", "B", "C"]).Names.length - 1) ∧
    (∀ p q, p < (DistMat.mk [[0, 1, 2], [3, 0, 4], [5, 6, 0]] ["A", "B", "C"]).Names.length →
      q < (DistMat.mk [[0, 1, 2], [3, 0, 4], [5, 6, 0]] ["A", "B", "C"]).Names.length →
      p ≠ 1 → q ≠ 1 →
      getCell ((DistMat.mk [[0, 1, 2], [3, 0, 4], [5, 6, 0]] ["A", "B", "C"]).Delete
          ((1 : ℕ) : ℤ)).Matrix
        (if p < 1 then p else p - 1) (if q < 1 then q else q - 1) =
        getCell (DistMat.mk [[0, 1, 2], [3, 0, 4], [5, 6, 0]] ["A", "B", "C"]).Matrix p q) :=
  ⟨by decide,
    c5_delete_taxon (DistMat.mk [[0, 1, 2], [3, 0, 4], [5, 6, 0]] ["A", "B", "C"]) 1
      (by decide) (by decide) (by decide)⟩

/- # The DeletePair characterization -/

/-- `DeletePair` is symmetric in its two indices (the keep predicates are
pointwise equal). -/
theorem DeletePair_comm (d : DistMat) (t1 t2 : ℤ) :
    d.DeletePair t1 t2 = d.DeletePair t2 t1 := by
  have hk : (fun i : ℕ => decide ((i : ℤ) ≠ t1 ∧ (i : ℤ) ≠ t2)) =
      (fun i : ℕ => decide ((i : ℤ) ≠ t2 ∧ (i : ℤ) ≠ t1)) :=
    funext fun i => decide_eq_decide.mpr and_comm
  simp only [DistMat.DeletePair]
  rw [hk]

/-- For ordered in-range indices `a < b`, `DeletePair` removes exactly the
names, rows and columns at the original positions `a` and `b`. -/
theorem DeletePair_eq (d : DistMat) (a b : ℕ) (hab : a < b) (hb : b < d.Names.length)
    (hmn : d.Matrix.length = d.Names.length)
    (hsq : ∀ r ∈ d.Matrix, r.length = d.Names.length) :
    d.DeletePair (a : ℤ) (b : ℤ) =
      ⟨((d.Matrix.eraseIdx b).eraseIdx a).map (fun r => (r.eraseIdx b).eraseIdx a),
        (d.Names.eraseIdx b).eraseIdx a⟩ := by
  simp only [DistMat.DeletePair, DistMat.mk.injEq]
  constructor
  · rw [compactLoop_full, keptSeg_erase_two _ _ hab (by omega)]
    apply List.map_congr_left
    intro row hrow
    have hrm : row ∈ d.Matrix :=
      (List.eraseIdx_sublist _ _).mem ((List.eraseIdx_sublist _ _).mem hrow)
    have hrl : row.length = d.Names.length := hsq row hrm
    rw [compactLoop_full, keptSeg_erase_two _ _ hab (by omega)]
  · rw [compactLoop_full, keptSeg_erase_two _ _ hab hb]

/-- Deleting two indices `a < b` shifts a surviving position `p` down by the
number of deleted indices below it. -/
theorem getD_erase2 (l : List α) {a b p : ℕ} (hab : a < b) (hb : b < l.length)
    (hp : p < l.length) (hpa : p ≠ a) (hpb : p ≠ b) (dflt : α) :
    ((l.eraseIdx b).eraseIdx a).getD
        (p - ((if a < p then 1 else 0) + (if b < p then 1 else 0))) dflt =
      l.getD p dflt := by
  have hea : a < (l.eraseIdx b).length := by
    rw [length_eraseIdx_of_lt _ hb]; omega
  rcases Nat.lt_or_ge p a with hpa2 | hpa2
  · have ha1 : ¬ a < p := by omega
    have ha2 : ¬ b < p := by omega
    rw [if_neg ha1, if_neg ha2]
    have h0 : p - (0 + 0) = p := by omega
    rw [h0, getD_eraseIdx _ hea, if_pos hpa2, getD_eraseIdx _ hb, if_pos (by omega)]
  · rcases Nat.lt_or_ge p b with hpb2 | hpb2
    · have ha1 : a < p := by omega
      have ha2 : ¬ b < p := by omega
      rw [if_pos ha1, if_neg ha2, getD_eraseIdx _ hea]
      have h3 : ¬ p - (1 + 0) < a := by omega
      rw [if_neg h3, getD_eraseIdx _ hb]
      have h4 : p - (1 + 0) + 1 = p := by omega
      rw [h4, if_pos (by omega)]
    · have ha1 : a < p := by omega
      have ha2 : b < p := by omega
      rw [if_pos ha1, if_pos ha2, getD_eraseIdx _ hea]
      have h3 : ¬ p - (1 + 1) < a := by omega
      rw [if_neg h3, getD_eraseIdx _ hb]
      have h4 : ¬ p - (1 + 1) + 1 < b := by omega
      rw [if_neg h4]
      congr 1
      omega

/-- C6: `DeletePair` on distinct in-range original indices removes exactly
those two taxa (names, rows and columns), yielding an (n-2)×(n-2) matrix in
which the surviving taxa keep their relative order and every entry between
two survivors keeps its original value at the shifted positions. -/
theorem c6_delete_pair (d : DistMat) (t1 t2 : ℕ) (hne : t1 ≠ t2)
    (h1 : t1 < d.Names.length) (h2 : t2 < d.Names.length)
    (hmn : d.Matrix.length = d.Names.length)
    (hsq : ∀ r ∈ d.Matrix, r.length = d.Names.length) :
    (d.DeletePair (t1 : ℤ) (t2 : ℤ)).Names =
        (d.Names.eraseIdx (max t1 t2)).eraseIdx (min t1 t2) ∧
      (d.DeletePair (t1 : ℤ) (t2 : ℤ)).Names.length = d.Names.length - 2 ∧
      (d.DeletePair (t1 : ℤ) (t2 : ℤ)).Matrix.length = d.Names.length - 2 ∧
      (∀ row ∈ (d.DeletePair (t1 : ℤ) (t2 : ℤ)).Matrix,
        row.length = d.Names.length - 2) ∧
      (∀ p q, p < d.Names.length → q < d.Names.length →
        p ≠ t1 → p ≠ t2 → q ≠ t1 → q ≠ t2 →
        getCell (d.DeletePair (t1 : ℤ) (t2 : ℤ)).Matrix
          (p - ((if t1 < p then 1 else 0) + (if t2 < p then 1 else 0)))
          (q - ((if t1 < q then 1 else 0) + (if t2 < q then 1 else 0))) =
          getCell d.Matrix p q) := by
  have main : ∀ (a b : ℕ), a < b → b < d.Names.length →
      (d.DeletePair (a : ℤ) (b : ℤ)).Names =
          (d.Names.eraseIdx b).eraseIdx a ∧
        (d.DeletePair (a : ℤ) (b : ℤ)).Names.length = d.Names.length - 2 ∧
        (d.DeletePair (a : ℤ) (b : ℤ)).Matrix.length = d.Names.length - 2 ∧
        (∀ row ∈ (d.DeletePair (a : ℤ) (b : ℤ)).Matrix,
          row.length = d.Names.length - 2) ∧
        (∀ p q, p < d.Names.length → q < d.Names.length →
          p ≠ a → p ≠ b → q ≠ a → q ≠ b →
          getCell (d.DeletePair (a : ℤ) (b : ℤ)).Matrix
            (p - ((if a < p then 1 else 0) + (if b < p then 1 else 0)))
            (q - ((if a < q then 1 else 0) + (if b < q then 1 else 0))) =
            getCell d.Matrix p q) := by
    intro a b hab hb
    rw [DeletePair_eq d a b hab hb hmn hsq]
    have hLb : b < d.Matrix.length := by omega
    have hLa : a < (d.Matrix.eraseIdx b).length := by
      rw [length_eraseIdx_of_lt _ hLb]; omega
    have hlen2 : ((d.Matrix.eraseIdx b).eraseIdx a).length = d.Names.length - 2 := by
      rw [length_eraseIdx_of_lt _ hLa, length_eraseIdx_of_lt _ hLb]; omega
    have hNb : b < d.Names.length := hb
    have hNa : a < (d.Names.eraseIdx b).length := by
      rw [length_eraseIdx_of_lt _ hNb]; omega
    refine ⟨rfl, ?_, ?_, ?_, ?_⟩
    · rw [length_eraseIdx_of_lt _ hNa, length_eraseIdx_of_lt _ hNb]; omega
    · rw [List.length_map, hlen2]
    · intro row hrow
      obtain ⟨r, hr, rfl⟩ := List.mem_map.mp hrow
      have hrM : r ∈ d.Matrix :=
        (List.eraseIdx_sublist _ _).mem ((List.eraseIdx_sublist _ _).mem hr)
      have hrl : r.length = d.Names.length := hsq r hrM
      have hrb : b < r.length := by omega
      have hra : a < (r.eraseIdx b).length := by
        rw [length_eraseIdx_of_lt _ hrb]; omega
      rw [length_eraseIdx_of_lt _ hra, length_eraseIdx_of_lt _ hrb]; omega
    · intro p q hp hq hpa hpb hqa hqb
      have hpM : p < d.Matrix.length := by omega
      have hrowlen : (d.Matrix.getD p []).length = d.Names.length := by
        rw [getD_eq_getElem _ _ hpM]
        exact hsq _ (List.getElem_mem hpM)
      rw [getCell, getCell,
        getD_map _ _ [] (by rw [hlen2]; split <;> split <;> omega),
        getD_erase2 _ hab hLb hpM hpa hpb,
        getD_erase2 _ hab (by omega) (by omega) hqa hqb]
  rcases Nat.lt_or_gt_of_ne hne with h | h
  · have res := main t1 t2 h h2
    rw [max_eq_right h.le, min_eq_left h.le]
    exact res
  · have res := main t2 t1 h h1
    rw [DeletePair_comm d (t1 : ℤ) (t2 : ℤ), max_eq_left h.le, min_eq_right h.le]
    obtain ⟨r1, r2, r3, r4, r5⟩ := res
    refine ⟨r1, r2, r3, r4, ?_⟩
    intro p q hp hq hpa hpb hqa hqb
    have hsw : ∀ x : ℕ,
        x - ((if t1 < x then 1 else 0) + (if t2 < x then 1 else 0)) =
        x - ((if t2 < x then 1 else 0) + (if t1 < x then 1 else 0)) := fun x => by
      rw [Nat.add_comm]
    rw [hsw p, hsw q]
    exact r5 p q hp hq hpb hpa hqb hqa

/-- Witness for C6 at a concrete 4×4 matrix with the unordered index pair
(3, 1). -/
theorem c6_witness :
    ((3 : ℕ) ≠ (1 : ℕ) ∧
      3 < (DistMat.mk [[0, 1, 2, 3], [4, 0, 5, 6], [7, 8, 0, 9], [10, 11, 12, 0]]
        ["A", "B", "C", "D"]).Names.length) ∧
    ((DistMat.mk [[0, 1, 2, 3], [4, 0, 5, 6], [7, 8, 0, 9], [10, 11, 12, 0]]
        ["A", "B", "C", "D"]).DeletePair ((3 : ℕ) : ℤ) ((1 : ℕ) : ℤ)).Names =
      (((DistMat.mk [[0, 1, 2, 3], [4, 0, 5, 6], [7, 8, 0, 9], [10, 11, 12, 0]]
        ["A", "B", "C", "D"]).Names.eraseIdx (max 3 1)).eraseIdx (min 3 1)) ∧
    (∀ p q, p < 4 → q < 4 → p ≠ 3 → p ≠ 1 → q ≠ 3 → q ≠ 1 →
      getCell ((DistMat.mk [[0, 1, 2, 3], [4, 0, 5, 6], [7, 8, 0, 9], [10, 11, 12, 0]]
          ["A", "B", "C", "D"]).DeletePair ((3 : ℕ) : ℤ) ((1 : ℕ) : ℤ)).Matrix
        (p - ((if 3 < p then 1 else 0) + (if 1 < p then 1 else 0)))
        (q - ((if 3 < q then 1 else 0) + (if 1 < q then 1 else 0))) =
        getCell (DistMat.mk [[0, 1, 2, 3], [4, 0, 5, 6], [7, 8, 0, 9], [10, 11, 12, 0]]
          ["A", "B", "C", "D"]).Matrix p q) := by
  have h := c6_delete_pair
    (DistMat.mk [[0, 1, 2, 3], [4, 0, 5, 6], [7, 8, 0, 9], [10, 11, 12, 0]]
      ["A", "B", "C", "D"]) 3 1 (by decide) (by decide) (by decide) (by decide) (by decide)
  exact ⟨⟨by decide, by decide⟩, h.1, h.2.2.2.2⟩

/- # The Append characterization -/

theorem getD_append_left (l1 l2 : List α) {i : ℕ} (h : i < l1.length) (d : α) :
    (l1 ++ l2).getD i d = l1.getD i d := by
  rw [List.getD_eq_getElem?_getD, List.getElem?_append, if_pos h, List.getD_eq_getElem?_getD]

theorem getD_append_last (l1 : List α) (x : α) (d : α) :
    (l1 ++ [x]).getD l1.length d = x := by
  induction l1 with
  | nil => rfl
  | cons a l ih => simpa using ih

/-- The column-extension loop of `Append` appends `data[r]` to every row `r`
in the iteration range. -/
theorem appendColsLoop_spec (data : List ℚ) :
    ∀ (fuel i : ℕ) (m : List (List ℚ)),
      (appendColsLoop data fuel i m).length = m.length ∧
      ∀ r, (appendColsLoop data fuel i m).getD r [] =
        if i ≤ r ∧ r < i + fuel ∧ r < m.length
        then m.getD r [] ++ [data.getD r 0] else m.getD r [] := by
  intro fuel
  induction fuel with
  | zero =>
    intro i m
    refine ⟨rfl, fun r => ?_⟩
    rw [if_neg (by omega)]
    rfl
  | succ fuel ih =>
    intro i m
    simp only [appendColsLoop]
    obtain ⟨ihl, ihg⟩ := ih (i + 1) (m.set i (m.getD i [] ++ [data.getD i 0]))
    refine ⟨by rw [ihl, List.length_set], fun r => ?_⟩
    rw [ihg r, List.length_set]
    by_cases hri : r = i
    · subst hri
      by_cases hrm : r < m.length
      · rw [if_neg (by omega), getD_set_self _ _ _ hrm, if_pos (by omega)]
      · rw [if_neg (by omega), if_neg (by omega), List.set_eq_of_length_le (by omega)]
    · rw [getD_set_ne _ (by omega)]
      by_cases hcond : i + 1 ≤ r ∧ r < i + 1 + fuel ∧ r < m.length
      · have hc2 : i ≤ r ∧ r < i + (fuel + 1) ∧ r < m.length := by omega
        rw [if_pos hcond, if_pos hc2]
      · rw [if_neg hcond, if_neg (by omega)]

/-- C7: `Append(name, data)` with matching dimension appends `name` to the
names, gives every existing row `i` the new last column `data[i]`, and adds a
final row `data ++ [0]`, growing the matrix to (n+1)×(n+1) rows. -/
theorem c7_append (d : DistMat) (name : String) (data : List ℚ)
    (hlen : data.length = d.Matrix.length) :
    ∃ d', d.Append name data = some d' ∧
      d'.Names = d.Names ++ [name] ∧
      d'.Matrix.length = d.Matrix.length + 1 ∧
      (∀ i, i < d.Matrix.length →
        d'.Matrix.getD i [] = d.Matrix.getD i [] ++ [data.getD i 0]) ∧
      d'.Matrix.getD d.Matrix.length [] = data ++ [0] := by
  obtain ⟨hL, hG⟩ := appendColsLoop_spec (data ++ [0]) d.Matrix.length 0
    (d.Matrix ++ [data ++ [0]])
  refine ⟨⟨appendColsLoop (data ++ [0]) d.Matrix.length 0 (d.Matrix ++ [data ++ [0]]),
    d.Names ++ [name]⟩, ?_, rfl, ?_, ?_, ?_⟩
  · show (if d.Matrix.length ≠ data.length then none else _) = _
    rw [if_neg (by omega)]
  · rw [hL, List.length_append, List.length_singleton]
  · intro i hi
    rw [hG i, if_pos (by simp [List.length_append]; omega),
      getD_append_left _ _ hi, getD_append_left _ _ (by omega)]
  · rw [hG d.Matrix.length, if_neg (by omega), getD_append_last]

/-- Witness for C7 at a concrete 2×2 matrix. -/
theorem c7_witness :
    ([5, 7] : List ℚ).length = (DistMat.mk [[0, 1], [2, 0]] ["A", "B"]).Matrix.length ∧
    ∃ d', (DistMat.mk [[0, 1], [2, 0]] ["A", "B"]).Append ("new") [5, 7] = some d' ∧
      d'.Names = (DistMat.mk [[0, 1], [2, 0]] ["A", "B"]).Names ++ [("new" : String)] ∧
      d'.Matrix.length = (DistMat.mk [[0, 1], [2, 0]] ["A", "B"]).Matrix.length + 1 ∧
      (∀ i, i < (DistMat.mk [[0, 1], [2, 0]] ["A", "B"]).Matrix.length →
        d'.Matrix.getD i [] =
          (DistMat.mk [[0, 1], [2, 0]] ["A", "B"]).Matrix.getD i [] ++
            [([5, 7] : List ℚ).getD i 0]) ∧
      d'.Matrix.getD (DistMat.mk [[0, 1], [2, 0]] ["A", "B"]).Matrix.length [] =
        ([5, 7] : List ℚ) ++ [0] :=
  ⟨by decide, c7_append (DistMat.mk [[0, 1], [2, 0]] ["A", "B"]) ("new") [5, 7] (by decide)⟩

/- # The MakeSymmetrical characterization -/

/-- A cell not at `(i, j)` or `(j, i)` is untouched by the symmetrized double
write. -/
theorem getCell_two_sets (m : List (List ℚ)) {i j a b : ℕ} (hij : i ≠ j) (v : ℚ)
    (h1 : ¬(a = i ∧ b = j)) (h2 : ¬(a = j ∧ b = i)) :
    getCell (setCell (setCell m i j v) j i v) a b = getCell m a b := by
  by_cases haj : a = j
  · subst haj
    have hbi : b ≠ i := fun hbi => h2 ⟨rfl, hbi⟩
    rw [getCell_setCell_ne_col _ _ (fun hc => hbi hc.symm),
      getCell_setCell_ne_row _ (fun hc => hij hc)]
  · rw [getCell_setCell_ne_row _ (fun hc => haj hc.symm)]
    by_cases hai : a = i
    · subst hai
      have hbj : b ≠ j := fun hbj => h1 ⟨rfl, hbj⟩
      rw [getCell_setCell_ne_col _ _ (fun hc => hbj hc.symm)]
    · rw [getCell_setCell_ne_row _ (fun hc => hai hc.symm)]

/-- Invariant of the inner loop of `MakeSymmetrical` over row `i`: pairs up to
the current column are averaged, everything else is untouched. -/
theorem symInner_spec (n i : ℕ) (M : List (List ℚ)) (hi : i < n) :
    ∀ (fuel j : ℕ) (m : List (List ℚ)),
      fuel + j = n → i + 1 ≤ j →
      m.length = n →
      (∀ r, r < n → (m.getD r []).length = n) →
      (∀ a b, a < n → b < n → getCell m a b =
        if (a < b ∧ (a < i ∨ (a = i ∧ b < j))) ∨ (b < a ∧ (b < i ∨ (b = i ∧ a < j)))
        then (getCell M a b + getCell M b a) / 2 else getCell M a b) →
      (symInner n i fuel j m).length = n ∧
        (∀ r, r < n → ((symInner n i fuel j m).getD r []).length = n) ∧
        (∀ a b, a < n → b < n → getCell (symInner n i fuel j m) a b =
          if (a < b ∧ (a < i ∨ (a = i ∧ b < n))) ∨ (b < a ∧ (b < i ∨ (b = i ∧ a < n)))
          then (getCell M a b + getCell M b a) / 2 else getCell M a b) := by
  intro fuel
  induction fuel with
  | zero =>
    intro j m hsum hij hml hrl hinv
    have hj : j = n := by omega
    subst hj
    exact ⟨hml, hrl, hinv⟩
  | succ fuel ih =>
    intro j m hsum hij hml hrl hinv
    have hjn : j < n := by omega
    have hinej : i ≠ j := by omega
    have hmij : getCell m i j = getCell M i j := by
      rw [hinv i j (by omega) (by omega), if_neg (by omega)]
    have hmji : getCell m j i = getCell M j i := by
      rw [hinv j i (by omega) (by omega), if_neg (by omega)]
    simp only [symInner]
    rw [hmij, hmji]
    apply ih (j + 1)
    · omega
    · omega
    · rw [length_setCell, length_setCell, hml]
    · intro r hr
      rw [row_length_setCell, row_length_setCell]
      exact hrl r hr
    · intro a b ha hb
      by_cases hab1 : a = i ∧ b = j
      · obtain ⟨rfl, rfl⟩ := hab1
        rw [getCell_setCell_ne_row _ (fun hc => hinej hc.symm),
          getCell_setCell_self _ (by omega) (by rw [hrl a (by omega)]; omega)]
        rw [if_pos (by omega)]
      · by_cases hab2 : a = j ∧ b = i
        · obtain ⟨rfl, rfl⟩ := hab2
          rw [getCell_setCell_self _ (by rw [length_setCell]; omega)
            (by rw [row_length_setCell, hrl a (by omega)]; omega)]
          rw [if_pos (by omega)]
          ring
        · rw [getCell_two_sets m hinej _ hab1 hab2, hinv a b ha hb]
          apply if_congr ?_ rfl rfl
          constructor
          · intro h
            rcases h with ⟨h3, h4⟩ | ⟨h3, h4⟩
            · exact Or.inl ⟨h3, by omega⟩
            · exact Or.inr ⟨h3, by omega⟩
          · intro h
            rcases h with ⟨h3, h4⟩ | ⟨h3, h4⟩
            · refine Or.inl ⟨h3, ?_⟩
              rcases h4 with h5 | ⟨h5, h6⟩
              · exact Or.inl h5
              · right
                refine ⟨h5, ?_⟩
                rcases Nat.lt_or_ge b j with h7 | h7
                · omega
                · exfalso
                  have hbj : b = j := by omega
                  exact hab1 ⟨h5, hbj⟩
            · refine Or.inr ⟨h3, ?_⟩
              rcases h4 with h5 | ⟨h5, h6⟩
              · exact Or.inl h5
              · right
                refine ⟨h5, ?_⟩
                rcases Nat.lt_or_ge a j with h7 | h7
                · omega
                · exfalso
                  have haj : a = j := by omega
                  exact hab2 ⟨by omega, by omega⟩

/-- Invariant of the outer loop of `MakeSymmetrical`: after the loop, every
off-diagonal pair is averaged and the diagonal is untouched. -/
theorem symOuter_spec (n : ℕ) (M : List (List ℚ)) :
    ∀ (fuel i : ℕ) (m : List (List ℚ)),
      fuel + i = n - 1 →
      m.length = n →
      (∀ r, r < n → (m.getD r []).length = n) →
      (∀ a b, a < n → b < n → getCell m a b =
        if (a < b ∧ a < i) ∨ (b < a ∧ b < i)
        then (getCell M a b + getCell M b a) / 2 else getCell M a b) →
      (symOuter n fuel i m).length = n ∧
        (∀ r, r < n → ((symOuter n fuel i m).getD r []).length = n) ∧
        (∀ a b, a < n → b < n → a ≠ b → getCell (symOuter n fuel i m) a b =
          (getCell M a b + getCell M b a) / 2) ∧
        (∀ a, a < n → getCell (symOuter n fuel i m) a a = getCell M a a) := by
  intro fuel
  induction fuel with
  | zero =>
    intro i m hsum hml hrl hinv
    simp only [symOuter]
    refine ⟨hml, hrl, ?_, ?_⟩
    · intro a b ha hb hab
      rw [hinv a b ha hb, if_pos (by omega)]
    · intro a ha
      rw [hinv a a ha ha, if_neg (by omega)]
  | succ fuel ih =>
    intro i m hsum hml hrl hinv
    have hin : i < n - 1 := by omega
    simp only [symOuter]
    obtain ⟨hs1, hs2, hs3⟩ := symInner_spec n i M (by omega) (n - (i + 1)) (i + 1) m
      (by omega) (by omega) hml hrl
      (by
        intro a b ha hb
        rw [hinv a b ha hb]
        apply if_congr ?_ rfl rfl
        constructor
        · intro h
          rcases h with ⟨h3, h4⟩ | ⟨h3, h4⟩
          · exact Or.inl ⟨h3, Or.inl h4⟩
          · exact Or.inr ⟨h3, Or.inl h4⟩
        · intro h
          rcases h with ⟨h3, h4⟩ | ⟨h3, h4⟩
          · refine Or.inl ⟨h3, ?_⟩
            rcases h4 with h5 | ⟨h5, h6⟩
            · exact h5
            · omega
          · refine Or.inr ⟨h3, ?_⟩
            rcases h4 with h5 | ⟨h5, h6⟩
            · exact h5
            · omega)
    apply ih (i + 1)
    · omega
    · exact hs1
    · exact hs2
    · intro a b ha hb
      rw [hs3 a b ha hb]
      apply if_congr ?_ rfl rfl
      constructor
      · intro h
        rcases h with ⟨h3, h4⟩ | ⟨h3, h4⟩
        · exact Or.inl ⟨h3, by omega⟩
        · exact Or.inr ⟨h3, by omega⟩
      · intro h
        rcases h with ⟨h3, h4⟩ | ⟨h3, h4⟩
        · exact Or.inl ⟨h3, by omega⟩
        · exact Or.inr ⟨h3, by omega⟩

/-- C8: after `MakeSymmetrical()`, every off-diagonal pair of entries equals
the arithmetic mean of the two original opposite entries, every diagonal
entry is unchanged, and the names and dimensions are unchanged. -/
theorem c8_make_symmetrical (d : DistMat)
    (hsq : ∀ r ∈ d.Matrix, r.length = d.Matrix.length) :
    (d.MakeSymmetrical).Names = d.Names ∧
      (d.MakeSymmetrical).Matrix.length = d.Matrix.length ∧
      (∀ row ∈ (d.MakeSymmetrical).Matrix, row.length = d.Matrix.length) ∧
      (∀ i j, i < d.Matrix.length → j < d.Matrix.length → i ≠ j →
        getCell (d.MakeSymmetrical).Matrix i j =
            (getCell d.Matrix i j + getCell d.Matrix j i) / 2 ∧
          getCell (d.MakeSymmetrical).Matrix j i =
            (getCell d.Matrix i j + getCell d.Matrix j i) / 2) ∧
      (∀ i, i < d.Matrix.length →
        getCell (d.MakeSymmetrical).Matrix i i = getCell d.Matrix i i) := by
  have hsq' : ∀ r, r < d.Matrix.length → (d.Matrix.getD r []).length = d.Matrix.length := by
    intro r hr
    rw [getD_eq_getElem _ _ hr]
    exact hsq _ (List.getElem_mem hr)
  obtain ⟨ho1, ho2, ho3, ho4⟩ := symOuter_spec d.Matrix.length d.Matrix
    (d.Matrix.length - 1) 0 d.Matrix (by omega) rfl hsq'
    (by
      intro a b ha hb
      rw [if_neg (by omega)])
  have hunf : d.MakeSymmetrical =
      ⟨symOuter d.Matrix.length (d.Matrix.length - 1) 0 d.Matrix, d.Names⟩ := rfl
  rw [hunf]
  dsimp only
  refine ⟨rfl, ho1, ?_, ?_, ho4⟩
  · intro row hrow
    rw [List.mem_iff_getElem] at hrow
    obtain ⟨r, hr, rfl⟩ := hrow
    have := ho2 r (by rwa [ho1] at hr)
    rwa [getD_eq_getElem _ _ hr] at this
  · intro i j hi hj hij
    refine ⟨ho3 i j hi hj hij, ?_⟩
    rw [ho3 j i hj hi (fun hc => hij hc.symm)]
    ring

/-- Witness for C8 at a concrete non-symmetric 2×2 matrix. -/
theorem c8_witness :
    (∀ r ∈ (DistMat.mk [[0, 1], [3, 0]] ["A", "B"]).Matrix,
      r.length = (DistMat.mk [[0, 1], [3, 0]] ["A", "B"]).Matrix.length) ∧
    ((DistMat.mk [[0, 1], [3, 0]] ["A", "B"]).MakeSymmetrical).Names =
        (DistMat.mk [[0, 1], [3, 0]] ["A", "B"]).Names ∧
    (∀ i j, i < (DistMat.mk [[0, 1], [3, 0]] ["A", "B"]).Matrix.length →
      j < (DistMat.mk [[0, 1], [3, 0]] ["A", "B"]).Matrix.length → i ≠ j →
      getCell ((DistMat.mk [[0, 1], [3, 0]] ["A", "B"]).MakeSymmetrical).Matrix i j =
          (getCell (DistMat.mk [[0, 1], [3, 0]] ["A", "B"]).Matrix i j +
            getCell (DistMat.mk [[0, 1], [3, 0]] ["A", "B"]).Matrix j i) / 2 ∧
        getCell ((DistMat.mk [[0, 1], [3, 0]] ["A", "B"]).MakeSymmetrical).Matrix j i =
          (getCell (DistMat.mk [[0, 1], [3, 0]] ["A", "B"]).Matrix i j +
            getCell (DistMat.mk [[0, 1], [3, 0]] ["A", "B"]).Matrix j i) / 2) ∧
    (∀ i, i < (DistMat.mk [[0, 1], [3, 0]] ["A", "B"]).Matrix.length →
      getCell ((DistMat.mk [[0, 1], [3, 0]] ["A", "B"]).MakeSymmetrical).Matrix i i =
        getCell (DistMat.mk [[0, 1], [3, 0]] ["A", "B"]).Matrix i i) := by
  have h := c8_make_symmetrical (DistMat.mk [[0, 1], [3, 0]] ["A", "B"]) (by decide)
  exact ⟨by decide, h.1, h.2.2.2.1, h.2.2.2.2⟩

/- # The Min and Max characterizations -/

theorem Min_eq_foldl (d : DistMat) :
    d.Min = (pairsRM d.Names.length).foldl (minStep d) (maxFloat64, 0, 0) := rfl

theorem Max_eq_foldl (d : DistMat) :
    d.Max = (pairsRM d.Names.length).foldl (maxStep d) (-maxFloat64, 0, 0) := rfl

/-- The strict-improvement fold keeps the first position attaining the
minimum: its result is bounded by everything seen, and either no off-diagonal
cell beat the start value, or the result is the first cell that beat it and
all earlier off-diagonal cells are strictly larger. -/
theorem minFold_spec (d : DistMat) :
    ∀ (L : List (ℕ × ℕ)) (acc : ℚ × ℕ × ℕ),
      (L.foldl (minStep d) acc).1 ≤ acc.1 ∧
        (∀ p ∈ L, p.1 ≠ p.2 →
          (L.foldl (minStep d) acc).1 ≤ getCell d.Matrix p.1 p.2) ∧
        (L.foldl (minStep d) acc = acc ∨
          ∃ pre p post, L = pre ++ p :: post ∧ p.1 ≠ p.2 ∧
            L.foldl (minStep d) acc = (getCell d.Matrix p.1 p.2, p.1, p.2) ∧
            getCell d.Matrix p.1 p.2 < acc.1 ∧
            ∀ q ∈ pre, q.1 ≠ q.2 →
              getCell d.Matrix p.1 p.2 < getCell d.Matrix q.1 q.2) := by
  intro L
  induction L with
  | nil => exact fun acc => ⟨le_refl _, fun p hp => absurd hp (List.not_mem_nil p), Or.inl rfl⟩
  | cons x L ih =>
    intro acc
    rw [List.foldl_cons]
    by_cases hxd : x.1 ≠ x.2
    · by_cases hlt : getCell d.Matrix x.1 x.2 < acc.1
      · have hstep : minStep d acc x = (getCell d.Matrix x.1 x.2, x.1, x.2) := by
          rw [minStep, if_pos hxd, if_pos hlt]
        rw [hstep]
        obtain ⟨ih1, ih2, ih3⟩ := ih (getCell d.Matrix x.1 x.2, x.1, x.2)
        refine ⟨le_trans ih1 (le_of_lt hlt), ?_, ?_⟩
        · intro p hp hpd
          rcases List.mem_cons.mp hp with rfl | hp2
          · exact ih1
          · exact ih2 p hp2 hpd
        · rcases ih3 with heq | ⟨pre, p, post, hdec, hpd, hres, hplt, hpre⟩
          · exact Or.inr ⟨[], x, L, rfl, hxd, heq, hlt, fun q hq => absurd hq (List.not_mem_nil q)⟩
          · refine Or.inr ⟨x :: pre, p, post, by rw [hdec, List.cons_append], hpd, hres, lt_trans hplt hlt, ?_⟩
            intro q hq hqd
            rcases List.mem_cons.mp hq with rfl | hq2
            · exact hplt
            · exact hpre q hq2 hqd
      · have hstep : minStep d acc x = acc := by
          rw [minStep, if_pos hxd, if_neg hlt]
        rw [hstep]
        obtain ⟨ih1, ih2, ih3⟩ := ih acc
        refine ⟨ih1, ?_, ?_⟩
        · intro p hp hpd
          rcases List.mem_cons.mp hp with rfl | hp2
          · exact le_trans ih1 (not_lt.mp hlt)
          · exact ih2 p hp2 hpd
        · rcases ih3 with heq | ⟨pre, p, post, hdec, hpd, hres, hplt, hpre⟩
          · exact Or.inl heq
          · refine Or.inr ⟨x :: pre, p, post, by rw [hdec, List.cons_append], hpd, hres, hplt, ?_⟩
            intro q hq hqd
            rcases List.mem_cons.mp hq with rfl | hq2
            · exact lt_of_lt_of_le hplt (not_lt.mp hlt)
            · exact hpre q hq2 hqd
    · have hstep : minStep d acc x = acc := by
        rw [minStep, if_neg hxd]
      rw [hstep]
      obtain ⟨ih1, ih2, ih3⟩ := ih acc
      refine ⟨ih1, ?_, ?_⟩
      · intro p hp hpd
        rcases List.mem_cons.mp hp with rfl | hp2
        · exact absurd hpd hxd
        · exact ih2 p hp2 hpd
      · rcases ih3 with heq | ⟨pre, p, post, hdec, hpd, hres, hplt, hpre⟩
        · exact Or.inl heq
        · refine Or.inr ⟨x :: pre, p, post, by rw [hdec, List.cons_append], hpd, hres, hplt, ?_⟩
          intro q hq hqd
          rcases List.mem_cons.mp hq with rfl | hq2
          · exact absurd hqd hxd
          · exact hpre q hq2 hqd

/-- Mirror of `minFold_spec` for the maximum scan. -/
theorem maxFold_spec (d : DistMat) :
    ∀ (L : List (ℕ × ℕ)) (acc : ℚ × ℕ × ℕ),
      acc.1 ≤ (L.foldl (maxStep d) acc).1 ∧
        (∀ p ∈ L, p.1 ≠ p.2 →
          getCell d.Matrix p.1 p.2 ≤ (L.foldl (maxStep d) acc).1) ∧
        (L.foldl (maxStep d) acc = acc ∨
          ∃ pre p post, L = pre ++ p :: post ∧ p.1 ≠ p.2 ∧
            L.foldl (maxStep d) acc = (getCell d.Matrix p.1 p.2, p.1, p.2) ∧
            acc.1 < getCell d.Matrix p.1 p.2 ∧
            ∀ q ∈ pre, q.1 ≠ q.2 →
              getCell d.Matrix q.1 q.2 < getCell d.Matrix p.1 p.2) := by
  intro L
  induction L with
  | nil => exact fun acc => ⟨le_refl _, fun p hp => absurd hp (List.not_mem_nil p), Or.inl rfl⟩
  | cons x L ih =>
    intro acc
    rw [List.foldl_cons]
    by_cases hxd : x.1 ≠ x.2
    · by_cases hlt : acc.1 < getCell d.Matrix x.1 x.2
      · have hstep : maxStep d acc x = (getCell d.Matrix x.1 x.2, x.1, x.2) := by
          rw [maxStep, if_pos hxd, if_pos hlt]
        rw [hstep]
        obtain ⟨ih1, ih2, ih3⟩ := ih (getCell d.Matrix x.1 x.2, x.1, x.2)
        refine ⟨le_trans (le_of_lt hlt) ih1, ?_, ?_⟩
        · intro p hp hpd
          rcases List.mem_cons.mp hp with rfl | hp2
          · exact ih1
          · exact ih2 p hp2 hpd
        · rcases ih3 with heq | ⟨pre, p, post, hdec, hpd, hres, hplt, hpre⟩
          · exact Or.inr ⟨[], x, L, rfl, hxd, heq, hlt, fun q hq => absurd hq (List.not_mem_nil q)⟩
          · refine Or.inr ⟨x :: pre, p, post, by rw [hdec, List.cons_append], hpd, hres, lt_trans hlt hplt, ?_⟩
            intro q hq hqd
            rcases List.mem_cons.mp hq with rfl | hq2
            · exact hplt
            · exact hpre q hq2 hqd
      · have hstep : maxStep d acc x = acc := by
          rw [maxStep, if_pos hxd, if_neg hlt]
        rw [hstep]
        obtain ⟨ih1, ih2, ih3⟩ := ih acc
        refine ⟨ih1, ?_, ?_⟩
        · intro p hp hpd
          rcases List.mem_cons.mp hp with rfl | hp2
          · exact le_trans (not_lt.mp hlt) ih1
          · exact ih2 p hp2 hpd
        · rcases ih3 with heq | ⟨pre, p, post, hdec, hpd, hres, hplt, hpre⟩
          · exact Or.inl heq
          · refine Or.inr ⟨x :: pre, p, post, by rw [hdec, List.cons_append], hpd, hres, hplt, ?_⟩
            intro q hq hqd
            rcases List.mem_cons.mp hq with rfl | hq2
            · exact lt_of_le_of_lt (not_lt.mp hlt) hplt
            · exact hpre q hq2 hqd
    · have hstep : maxStep d acc x = acc := by
        rw [maxStep, if_neg hxd]
      rw [hstep]
      obtain ⟨ih1, ih2, ih3⟩ := ih acc
      refine ⟨ih1, ?_, ?_⟩
      · intro p hp hpd
        rcases List.mem_cons.mp hp with rfl | hp2
        · exact absurd hpd hxd
        · exact ih2 p hp2 hpd
      · rcases ih3 with heq | ⟨pre, p, post, hdec, hpd, hres, hplt, hpre⟩
        · exact Or.inl heq
        · refine Or.inr ⟨x :: pre, p, post, by rw [hdec, List.cons_append], hpd, hres, hplt, ?_⟩
          intro q hq hqd
          rcases List.mem_cons.mp hq with rfl | hq2
          · exact absurd hqd hxd
          · exact hpre q hq2 hqd

/-- Membership in the row-major pair sequence. -/
theorem mem_pairsRM {n : ℕ} {p : ℕ × ℕ} : p ∈ pairsRM n ↔ p.1 < n ∧ p.2 < n := by
  cases p with
  | mk a b =>
    simp only [pairsRM, List.mem_flatten, List.mem_map, List.mem_range]
    constructor
    · rintro ⟨l, ⟨i, hi, rfl⟩, hp⟩
      simp only [List.mem_map, List.mem_range, Prod.mk.injEq] at hp
      obtain ⟨j, hj, hij, hjb⟩ := hp
      exact ⟨hij ▸ hi, hjb ▸ hj⟩
    · rintro ⟨h1, h2⟩
      exact ⟨(List.range n).map (fun j => (a, j)), ⟨a, h1, rfl⟩, by simp [h2]⟩

/-- The row-major pair sequence is strictly increasing in the lexicographic
order. -/
theorem pairsRM_pairwise (n : ℕ) :
    List.Pairwise
      (fun p q : ℕ × ℕ => p.1 < q.1 ∨ (p.1 = q.1 ∧ p.2 < q.2)) (pairsRM n) := by
  rw [pairsRM, List.pairwise_flatten]
  refine ⟨?_, ?_⟩
  · intro l hl
    simp only [List.mem_map, List.mem_range] at hl
    obtain ⟨i, hi, rfl⟩ := hl
    exact (List.pairwise_lt_range n).map _ (fun a b hab => Or.inr ⟨rfl, hab⟩)
  · apply (List.pairwise_lt_range n).map
    intro a b hab
    intro x hx y hy
    simp only [List.mem_map, List.mem_range] at hx hy
    obtain ⟨j1, _, rfl⟩ := hx
    obtain ⟨j2, _, rfl⟩ := hy
    exact Or.inl hab

/-- C4 (amended): for a well-formed `DistMat` with `n ≥ 2` whose off-diagonal
entries lie strictly between `-math.MaxFloat64` and `math.MaxFloat64`, `Min()`
returns the smallest off-diagonal entry together with the first index pair
attaining it in row-major order, `Max()` satisfies the mirrored contract, and
every off-diagonal entry lies between the two reported extrema.  (Without the
strict bound the sentinel start values can survive the scan and the returned
indices stay at the diagonal position (0,0); see the counterexample.) -/
theorem c4_min_max (d : DistMat) (n2 : 2 ≤ d.Names.length)
    (hbound : ∀ a b, a < d.Names.length → b < d.Names.length → a ≠ b →
      -maxFloat64 < getCell d.Matrix a b ∧ getCell d.Matrix a b < maxFloat64) :
    (d.Min.2.1 < d.Names.length ∧ d.Min.2.2 < d.Names.length ∧
      d.Min.2.1 ≠ d.Min.2.2 ∧ getCell d.Matrix d.Min.2.1 d.Min.2.2 = d.Min.1) ∧
    (d.Max.2.1 < d.Names.length ∧ d.Max.2.2 < d.Names.length ∧
      d.Max.2.1 ≠ d.Max.2.2 ∧ getCell d.Matrix d.Max.2.1 d.Max.2.2 = d.Max.1) ∧
    (∀ a b, a < d.Names.length → b < d.Names.length → a ≠ b →
      d.Min.1 ≤ getCell d.Matrix a b ∧ getCell d.Matrix a b ≤ d.Max.1) ∧
    (∀ a b, a < d.Names.length → b < d.Names.length → a ≠ b →
      (a < d.Min.2.1 ∨ (a = d.Min.2.1 ∧ b < d.Min.2.2)) →
      d.Min.1 < getCell d.Matrix a b) ∧
    (∀ a b, a < d.Names.length → b < d.Names.length → a ≠ b →
      (a < d.Max.2.1 ∨ (a = d.Max.2.1 ∧ b < d.Max.2.2)) →
      getCell d.Matrix a b < d.Max.1) := by
  obtain ⟨f1, f2, f3⟩ := minFold_spec d (pairsRM d.Names.length) (maxFloat64, 0, 0)
  obtain ⟨g1, g2, g3⟩ := maxFold_spec d (pairsRM d.Names.length) (-maxFloat64, 0, 0)
  have h01 : ((0 : ℕ), (1 : ℕ)) ∈ pairsRM d.Names.length :=
    mem_pairsRM.mpr ⟨by omega, by omega⟩
  have hb01 := hbound 0 1 (by omega) (by omega) (by omega)
  rcases f3 with heq | ⟨pre, p, post, hdec, hpd, hres, hplt, hpre⟩
  · exfalso
    have hf := f2 (0, 1) h01 (by omega)
    rw [heq] at hf
    have : maxFloat64 ≤ getCell d.Matrix 0 1 := hf
    linarith [hb01.2]
  rcases g3 with heq2 | ⟨pre2, P, post2, hdec2, hPd, hres2, hPlt, hpre2⟩
  · exfalso
    have hg := g2 (0, 1) h01 (by omega)
    rw [heq2] at hg
    have : getCell d.Matrix 0 1 ≤ -maxFloat64 := hg
    linarith [hb01.1]
  have hMin : d.Min = (getCell d.Matrix p.1 p.2, p.1, p.2) := by
    rw [Min_eq_foldl]; exact hres
  have hMax : d.Max = (getCell d.Matrix P.1 P.2, P.1, P.2) := by
    rw [Max_eq_foldl]; exact hres2
  have hpmem : p ∈ pairsRM d.Names.length := by
    rw [hdec]; exact List.mem_append_right pre (List.mem_cons_self p post)
  have hPmem : P ∈ pairsRM d.Names.length := by
    rw [hdec2]; exact List.mem_append_right pre2 (List.mem_cons_self P post2)
  obtain ⟨hp1, hp2⟩ := mem_pairsRM.mp hpmem
  obtain ⟨hP1, hP2⟩ := mem_pairsRM.mp hPmem
  refine ⟨⟨?_, ?_, ?_, ?_⟩, ⟨?_, ?_, ?_, ?_⟩, ?_, ?_, ?_⟩
  · rw [hMin]; exact hp1
  · rw [hMin]; exact hp2
  · rw [hMin]; exact hpd
  · rw [hMin]
  · rw [hMax]; exact hP1
  · rw [hMax]; exact hP2
  · rw [hMax]; exact hPd
  · rw [hMax]
  · intro a b ha hb hab
    have hmem : (a, b) ∈ pairsRM d.Names.length := mem_pairsRM.mpr ⟨ha, hb⟩
    constructor
    · rw [hMin]
      have hv := f2 (a, b) hmem hab
      rwa [hres] at hv
    · rw [hMax]
      have hv := g2 (a, b) hmem hab
      rwa [hres2] at hv
  · intro a b ha hb hab hlex
    rw [hMin] at hlex ⊢
    dsimp only at hlex
    have hmem : (a, b) ∈ pre ++ p :: post := by
      rw [← hdec]; exact mem_pairsRM.mpr ⟨ha, hb⟩
    rcases List.mem_append.mp hmem with habpre | habp
    · exact hpre (a, b) habpre hab
    · rcases List.mem_cons.mp habp with habeq | habpost
      · exfalso
        have h1 : a = p.1 := by rw [← habeq]
        have h2 : b = p.2 := by rw [← habeq]
        omega
      · exfalso
        have hpw := pairsRM_pairwise d.Names.length
        rw [hdec] at hpw
        obtain ⟨_, hpwcons, _⟩ := List.pairwise_append.mp hpw
        have hlex2 := (List.pairwise_cons.mp hpwcons).1 (a, b) habpost
        rcases hlex2 with h | ⟨h1, h2⟩ <;> omega
  · intro a b ha hb hab hlex
    rw [hMax] at hlex ⊢
    dsimp only at hlex
    have hmem : (a, b) ∈ pre2 ++ P :: post2 := by
      rw [← hdec2]; exact mem_pairsRM.mpr ⟨ha, hb⟩
    rcases List.mem_append.mp hmem with habpre | habp
    · exact hpre2 (a, b) habpre hab
    · rcases List.mem_cons.mp habp with habeq | habpost
      · exfalso
        have h1 : a = P.1 := by rw [← habeq]
        have h2 : b = P.2 := by rw [← habeq]
        omega
      · exfalso
        have hpw := pairsRM_pairwise d.Names.length
        rw [hdec2] at hpw
        obtain ⟨_, hpwcons, _⟩ := List.pairwise_append.mp hpw
        have hlex2 := (List.pairwise_cons.mp hpwcons).1 (a, b) habpost
        rcases hlex2 with h | ⟨h1, h2⟩ <;> omega

set_option maxRecDepth 8000 in
/-- C4 counterexample: on the 2×2 matrix whose off-diagonal entries equal
`math.MaxFloat64`, `Min()` never improves on its sentinel start value, so the
returned index pair is the diagonal position (0,0): the claim's requirement
that the reported indices satisfy `i ≠ j` fails even though `n ≥ 2`. -/
theorem c4_counterexample :
    2 ≤ (DistMat.mk [[0, maxFloat64], [maxFloat64, 0]] ["A", "B"]).Names.length ∧
    (DistMat.mk [[0, maxFloat64], [maxFloat64, 0]] ["A", "B"]).Min =
      (maxFloat64, 0, 0) ∧
    (DistMat.mk [[0, maxFloat64], [maxFloat64, 0]] ["A", "B"]).Min.2.1 =
      (DistMat.mk [[0, maxFloat64], [maxFloat64, 0]] ["A", "B"]).Min.2.2 := by
  refine ⟨by decide, by decide, by decide⟩

set_option maxRecDepth 8000 in
/-- Witness for the amended C4 at a concrete 2×2 matrix. -/
theorem c4_witness :
    (2 ≤ (DistMat.mk [[0, 5], [3, 0]] ["A", "B"]).Names.length ∧
      (∀ a b, a < (DistMat.mk [[0, 5], [3, 0]] ["A", "B"]).Names.length → b < (DistMat.mk [[0, 5], [3, 0]] ["A", "B"]).Names.length → a ≠ b →
        -maxFloat64 < getCell (DistMat.mk [[0, 5], [3, 0]] ["A", "B"]).Matrix a b ∧ getCell (DistMat.mk [[0, 5], [3, 0]] ["A", "B"]).Matrix a b < maxFloat64)) ∧
    ((DistMat.mk [[0, 5], [3, 0]] ["A", "B"]).Min.2.1 < (DistMat.mk [[0, 5], [3, 0]] ["A", "B"]).Names.length ∧ (DistMat.mk [[0, 5], [3, 0]] ["A", "B"]).Min.2.2 < (DistMat.mk [[0, 5], [3, 0]] ["A", "B"]).Names.length ∧
      (DistMat.mk [[0, 5], [3, 0]] ["A", "B"]).Min.2.1 ≠ (DistMat.mk [[0, 5], [3, 0]] ["A", "B"]).Min.2.2 ∧
      getCell (DistMat.mk [[0, 5], [3, 0]] ["A", "B"]).Matrix (DistMat.mk [[0, 5], [3, 0]] ["A", "B"]).Min.2.1 (DistMat.mk [[0, 5], [3, 0]] ["A", "B"]).Min.2.2 = (DistMat.mk [[0, 5], [3, 0]] ["A", "B"]).Min.1) ∧
    ((DistMat.mk [[0, 5], [3, 0]] ["A", "B"]).Max.2.1 < (DistMat.mk [[0, 5], [3, 0]] ["A", "B"]).Names.length ∧ (DistMat.mk [[0, 5], [3, 0]] ["A", "B"]).Max.2.2 < (DistMat.mk [[0, 5], [3, 0]] ["A", "B"]).Names.length ∧
      (DistMat.mk [[0, 5], [3, 0]] ["A", "B"]).Max.2.1 ≠ (DistMat.mk [[0, 5], [3, 0]] ["A", "B"]).Max.2.2 ∧
      getCell (DistMat.mk [[0, 5], [3, 0]] ["A", "B"]).Matrix (DistMat.mk [[0, 5], [3, 0]] ["A", "B"]).Max.2.1 (DistMat.mk [[0, 5], [3, 0]] ["A", "B"]).Max.2.2 = (DistMat.mk [[0, 5], [3, 0]] ["A", "B"]).Max.1) ∧
    (∀ a b, a < (DistMat.mk [[0, 5], [3, 0]] ["A", "B"]).Names.length → b < (DistMat.mk [[0, 5], [3, 0]] ["A", "B"]).Names.length → a ≠ b →
      (DistMat.mk [[0, 5], [3, 0]] ["A", "B"]).Min.1 ≤ getCell (DistMat.mk [[0, 5], [3, 0]] ["A", "B"]).Matrix a b ∧ getCell (DistMat.mk [[0, 5], [3, 0]] ["A", "B"]).Matrix a b ≤ (DistMat.mk [[0, 5], [3, 0]] ["A", "B"]).Max.1) ∧
    (∀ a b, a < (DistMat.mk [[0, 5], [3, 0]] ["A", "B"]).Names.length → b < (DistMat.mk [[0, 5], [3, 0]] ["A", "B"]).Names.length → a ≠ b →
      (a < (DistMat.mk [[0, 5], [3, 0]] ["A", "B"]).Min.2.1 ∨ (a = (DistMat.mk [[0, 5], [3, 0]] ["A", "B"]).Min.2.1 ∧ b < (DistMat.mk [[0, 5], [3, 0]] ["A", "B"]).Min.2.2)) →
      (DistMat.mk [[0, 5], [3, 0]] ["A", "B"]).Min.1 < getCell (DistMat.mk [[0, 5], [3, 0]] ["A", "B"]).Matrix a b) ∧
    (∀ a b, a < (DistMat.mk [[0, 5], [3, 0]] ["A", "B"]).Names.length → b < (DistMat.mk [[0, 5], [3, 0]] ["A", "B"]).Names.length → a ≠ b →
      (a < (DistMat.mk [[0, 5], [3, 0]] ["A", "B"]).Max.2.1 ∨ (a = (DistMat.mk [[0, 5], [3, 0]] ["A", "B"]).Max.2.1 ∧ b < (DistMat.mk [[0, 5], [3, 0]] ["A", "B"]).Max.2.2)) →
      getCell (DistMat.mk [[0, 5], [3, 0]] ["A", "B"]).Matrix a b < (DistMat.mk [[0, 5], [3, 0]] ["A", "B"]).Max.1) := by
  have hbound : ∀ a b, a < (DistMat.mk [[0, 5], [3, 0]] ["A", "B"]).Names.length → b < (DistMat.mk [[0, 5], [3, 0]] ["A", "B"]).Names.length → a ≠ b →
      -maxFloat64 < getCell (DistMat.mk [[0, 5], [3, 0]] ["A", "B"]).Matrix a b ∧ getCell (DistMat.mk [[0, 5], [3, 0]] ["A", "B"]).Matrix a b < maxFloat64 := by
    intro a b ha hb hab
    have ha2 : a < 2 := ha
    have hb2 : b < 2 := hb
    interval_cases a <;> interval_cases b
    · exact absurd rfl hab
    · exact ⟨by decide, by decide⟩
    · exact ⟨by decide, by decide⟩
    · exact absurd rfl hab
  exact ⟨⟨by decide, hbound⟩, c4_min_max (DistMat.mk [[0, 5], [3, 0]] ["A", "B"]) (by decide) hbound⟩

/- # Scanner claims -/

/-- Reading a character stream with no newline returns everything read
together with the end-of-stream error. -/
theorem readString_no_newline (cs : List Char) (h : '\n' ∉ cs) :
    readString cs = (cs, true, []) := by
  induction cs with
  | nil => rfl
  | cons c cs ih =>
    have hc : c ≠ '\n' := fun hc => h (hc ▸ List.mem_cons_self c cs)
    have hcs : '\n' ∉ cs := fun hm => h (List.mem_cons_of_mem c hm)
    simp only [readString, if_neg hc, ih hcs]

/-- C1 (amended): an unsuccessful `Scan()` that fails during the initial
digit-line search (end of stream before any digit-containing line is found)
returns false and leaves the held matrix untouched.  (When a header has
already been parsed in the failing call, the freshly allocated matrix of the
new block replaces the held one instead; see the counterexample.) -/
theorem c1_scan_eof_preserves (s : Scanner)
    (h : (skipNoDigit (s.input.length + 1) s.input).2.1 = true) :
    (s.Scan).1 = ScanResult.eof ∧
      (s.Scan).2.DistanceMatrix = s.DistanceMatrix := by
  constructor <;> simp [Scanner.Scan, Scanner.DistanceMatrix, h]

/-- Witness for the amended C1: a scanner holding a matrix, at a stream with
no digit-containing line left. -/
theorem c1_witness :
    (skipNoDigit ((("tail junk\n").data : List Char).length + 1)
        (("tail junk\n").data)).2.1 = true ∧
      ((Scanner.mk (("tail junk\n").data) (some (NewDistMat 1))).Scan).1 =
        ScanResult.eof ∧
      ((Scanner.mk (("tail junk\n").data) (some (NewDistMat 1))).Scan).2.DistanceMatrix =
        (Scanner.mk (("tail junk\n").data) (some (NewDistMat 1))).DistanceMatrix :=
  ⟨by decide, c1_scan_eof_preserves (Scanner.mk (("tail junk\n").data)
    (some (NewDistMat 1))) (by decide)⟩

/-- C1 counterexample: after a successful scan of a 1×1 block, a second
`Scan()` call parses the header `2`, allocates a fresh 2×2 matrix into the
scanner, and then hits end of stream: it returns false, yet
`DistanceMatrix()` now yields the new zero matrix, not the matrix of the last
successful scan. -/
theorem c1_counterexample :
    (Scanner.Scan ⟨("1\nA 0\n2\n").data, none⟩).1 = ScanResult.success ∧
      (Scanner.Scan (Scanner.Scan ⟨("1\nA 0\n2\n").data, none⟩).2).1 =
        ScanResult.eof ∧
      Option.map DistMat.Names
          ((Scanner.Scan ⟨("1\nA 0\n2\n").data, none⟩).2.DistanceMatrix) =
        some ["A"] ∧
      Option.map DistMat.Names
          ((Scanner.Scan (Scanner.Scan ⟨("1\nA 0\n2\n").data, none⟩).2).2.DistanceMatrix) =
        some ["", ""] ∧
      (Scanner.Scan (Scanner.Scan ⟨("1\nA 0\n2\n").data, none⟩).2).2.DistanceMatrix ≠
        (Scanner.Scan ⟨("1\nA 0\n2\n").data, none⟩).2.DistanceMatrix := by
  refine ⟨by decide, by decide, by decide, by decide, ?_⟩
  intro hcontra
  have h1 : Option.map DistMat.Names
      ((Scanner.Scan ⟨("1\nA 0\n2\n").data, none⟩).2.DistanceMatrix) =
      some ["A"] := by decide
  have h2 : Option.map DistMat.Names
      ((Scanner.Scan (Scanner.Scan ⟨("1\nA 0\n2\n").data, none⟩).2).2.DistanceMatrix) =
      some ["", ""] := by decide
  rw [hcontra, h1] at h2
  exact absurd (Option.some.inj h2) (by decide)

/-- C2: `Delete` with the out-of-range index 2 on a 2×2 matrix reports no
error and silently truncates the matrix to 1×1 while keeping both names,
breaking the `len(names) = len(matrix)` invariant — silent corruption instead
of the claimed explicit error.  (`Append` with a mismatched length is the
modelled `log.Fatalf`, i.e. process termination, not an error returned to the
caller.) -/
theorem c2_delete_out_of_range_corrupts :
    (DistMat.mk [[0, 1], [1, 0]] ["A", "B"]).Delete 2 =
        DistMat.mk [[0]] ["A", "B"] ∧
      ((DistMat.mk [[0, 1], [1, 0]] ["A", "B"]).Delete 2).Names.length ≠
        ((DistMat.mk [[0, 1], [1, 0]] ["A", "B"]).Delete 2).Matrix.length ∧
      (DistMat.mk [[0, 1], [1, 0]] ["A", "B"]).Append ("C") [1] = none := by
  refine ⟨by decide, by decide, by decide⟩

/-- C3: a data row with fewer distance fields than required makes the scanner
index past the end of its fields slice — a runtime fault, not the fatal parse
error the specification prescribes; a present but non-numeric token is the
`log.Fatalf` parse error. -/
theorem c3_missing_field_faults :
    (Scanner.Scan ⟨("2\nA 0.1\nB 0.2 0.3\n").data, none⟩).1 = ScanResult.fault ∧
      (Scanner.Scan ⟨("2\nA 0.1 xyz\n").data, none⟩).1 = ScanResult.fatal := by
  refine ⟨by decide, by decide⟩

/-- C10: an unterminated final line is read in full but discarded.  If the
would-be header line is the final unterminated line, `Scan()` returns false
with the held matrix unchanged; if a data row is, the row loop returns the
unsuccessful outcome without entering the line's content into the matrix.
The last conjunct shows the end-to-end case: a 2×2 block whose second data
row lacks the final newline scans unsuccessfully. -/
theorem c10_unterminated_final_line :
    (∀ (cs : List Char) (mat : Option DistMat), '\n' ∉ cs →
      (Scanner.Scan ⟨cs, mat⟩).1 = ScanResult.eof ∧
        (Scanner.Scan ⟨cs, mat⟩).2.DistanceMatrix = mat) ∧
      (∀ (n fuel : ℕ) (m : DistMat) (cs : List Char), '\n' ∉ cs →
        scanRows n (fuel + 1) m cs = (ScanResult.eof, m, [])) ∧
      (Scanner.Scan ⟨("2\nA 0 1\nB 1 0").data, none⟩).1 = ScanResult.eof := by
  refine ⟨?_, ?_, by decide⟩
  · intro cs mat hnl
    have hr := readString_no_newline cs hnl
    have hskip : skipNoDigit (cs.length + 1) cs = (cs, true, []) := by
      rw [skipNoDigit, hr]
      simp
    constructor <;> simp [Scanner.Scan, Scanner.DistanceMatrix, hskip]
  · intro n fuel m cs hnl
    rw [scanRows, readString_no_newline cs hnl]
    simp

/-- Witness for C10 at concrete unterminated streams. -/
theorem c10_witness :
    ('\n' ∉ (("2").data : List Char) ∧
        '\n' ∉ (("B 1 0").data : List Char)) ∧
      ((Scanner.Scan ⟨("2").data, some (NewDistMat 1)⟩).1 = ScanResult.eof ∧
        (Scanner.Scan ⟨("2").data, some (NewDistMat 1)⟩).2.DistanceMatrix =
          some (NewDistMat 1)) ∧
      scanRows 2 (0 + 1) (NewDistMat 2) (("B 1 0").data) =
        (ScanResult.eof, NewDistMat 2, []) :=
  ⟨⟨by decide, by decide⟩,
    c10_unterminated_final_line.1 (("2").data) (some (NewDistMat 1)) (by decide),
    c10_unterminated_final_line.2.1 2 0 (NewDistMat 2) (("B 1 0").data) (by decide)⟩

/- # Digit characters -/

theorem isDigitB_digitToChar (d : ℕ) : isDigitB (digitToChar d) = true := by
  have h : d % 10 < 10 := Nat.mod_lt _ (by omega)
  rw [digitToChar]
  generalize d % 10 = r at h
  interval_cases r <;> decide

theorem digitToChar_val (d : ℕ) (h : d < 10) : (digitToChar d).toNat - 48 = d := by
  rw [digitToChar, Nat.mod_eq_of_lt h]
  interval_cases d <;> decide

theorem digitToChar_not_space (d : ℕ) : isSpaceGo (digitToChar d) = false := by
  have h : d % 10 < 10 := Nat.mod_lt _ (by omega)
  rw [digitToChar]
  generalize d % 10 = r at h
  interval_cases r <;> decide

theorem digitToChar_ne_special (d : ℕ) :
    digitToChar d ≠ '+' ∧ digitToChar d ≠ '-' ∧ digitToChar d ≠ '.' ∧
      digitToChar d ≠ 'e' ∧ digitToChar d ≠ '\n' ∧ digitToChar d ≠ '\r' := by
  have h : d % 10 < 10 := Nat.mod_lt _ (by omega)
  rw [digitToChar]
  generalize d % 10 = r at h
  interval_cases r <;> exact (by decide)

/-- Every character of `natToChars` is a decimal digit. -/
theorem natToChars_digits (n : ℕ) : ∀ c ∈ natToChars n, isDigitB c = true := by
  intro c hc
  rw [natToChars] at hc
  split at hc
  · rcases List.mem_singleton.mp hc with rfl
    decide
  · obtain ⟨d, _, rfl⟩ := List.mem_map.mp hc
    exact isDigitB_digitToChar d

theorem natToChars_ne_nil (n : ℕ) : natToChars n ≠ [] := by
  rw [natToChars]
  split
  · exact fun h => List.cons_ne_nil _ _ h
  · intro h
    rw [List.map_eq_nil_iff, List.reverse_eq_nil_iff] at h
    exact (by assumption : ¬ n = 0) (Nat.digits_eq_nil_iff_eq_zero.mp h)

/- # parseDigitsLoop -/

theorem parseDigitsLoop_cons (acc : ℕ) (c : Char) (cs : List Char) :
    parseDigitsLoop acc (c :: cs) = parseDigitsLoop (acc * 10 + (c.toNat - 48)) cs := rfl

/-- On digit characters, the accumulator loop computes the base-10 fold of
the digit values. -/
theorem parseDigitsLoop_digits (L : List ℕ) (hL : ∀ d ∈ L, d < 10) :
    ∀ acc, parseDigitsLoop acc (L.map digitToChar) =
      L.foldl (fun a d => a * 10 + d) acc := by
  induction L with
  | nil => intro acc; rfl
  | cons d L ih =>
    intro acc
    rw [List.map_cons, List.foldl_cons, parseDigitsLoop_cons,
      digitToChar_val d (hL d (List.mem_cons_self d L))]
    exact ih (fun x hx => hL x (List.mem_cons_of_mem d hx)) _

/-- Leading zeros do not change the accumulated value. -/
theorem foldl_digits_zeros (k : ℕ) (L : List ℕ) :
    (List.replicate k 0 ++ L).foldl (fun a d => a * 10 + d) 0 =
      L.foldl (fun a d => a * 10 + d) 0 := by
  induction k with
  | zero => rfl
  | succ k ih => simpa [List.replicate_succ] using ih

/-- The accumulator fold over a big-endian digit list recovers the number. -/
theorem foldl_digits_reverse (n : ℕ) :
    ((Nat.digits 10 n).reverse).foldl (fun a d => a * 10 + d) 0 = n := by
  have key : ∀ L : List ℕ, L.reverse.foldl (fun a d => a * 10 + d) 0 =
      Nat.ofDigits 10 L := by
    intro L
    rw [List.foldl_reverse]
    induction L with
    | nil => rfl
    | cons d L ih =>
      rw [List.foldr_cons, Nat.ofDigits_cons, ih]
      ring
  rw [key, Nat.ofDigits_digits]

/-- `parseDigitsLoop` inverts `natToChars`. -/
theorem parseDigitsLoop_natToChars (n : ℕ) :
    parseDigitsLoop 0 (natToChars n) = n := by
  rw [natToChars]
  split
  · have h0 : n = 0 := by assumption
    subst h0
    decide
  · rw [parseDigitsLoop_digits _ (fun d hd =>
      Nat.digits_lt_base (by omega) (List.mem_reverse.mp hd))]
    exact foldl_digits_reverse n

/-- Prepending the padding zero preserves the parsed value and digit-ness. -/
theorem parseDigitsLoop_padTwo (l : List Char) :
    parseDigitsLoop 0 (padTwo l) = parseDigitsLoop 0 l := by
  rw [padTwo]
  split
  · rw [parseDigitsLoop_cons]
    have h48 : 0 * 10 + (('0').toNat - 48) = 0 := by decide
    rw [h48]
  · rfl

theorem padTwo_digits (l : List Char) (hl : ∀ c ∈ l, isDigitB c = true) :
    ∀ c ∈ padTwo l, isDigitB c = true := by
  intro c hc
  rw [padTwo] at hc
  split at hc
  · rcases List.mem_cons.mp hc with rfl | hc2
    · decide
    · exact hl c hc2
  · exact hl c hc

theorem padTwo_ne_nil (l : List Char) (h : l ≠ []) : padTwo l ≠ [] := by
  rw [padTwo]
  split
  · exact List.cons_ne_nil _ _
  · exact h

/- # Span and sign lemmas for the float grammar -/

theorem span_digits (l rest : List Char) (hall : ∀ c ∈ l, isDigitB c = true)
    (hrest : ∀ c, rest.head? = some c → isDigitB c = false) :
    (l ++ rest).takeWhile isDigitB = l ∧ (l ++ rest).dropWhile isDigitB = rest := by
  induction l with
  | nil =>
    simp only [List.nil_append]
    cases rest with
    | nil => exact ⟨rfl, rfl⟩
    | cons c cs =>
      have hc : isDigitB c = false := hrest c rfl
      rw [List.takeWhile_cons, List.dropWhile_cons, hc]
      exact ⟨rfl, rfl⟩
  | cons c l ih =>
    have hc : isDigitB c = true := hall c (List.mem_cons_self c l)
    obtain ⟨ih1, ih2⟩ := ih (fun x hx => hall x (List.mem_cons_of_mem c hx))
    rw [List.cons_append, List.takeWhile_cons, List.dropWhile_cons, hc]
    simp [ih1, ih2]

theorem parseSign_no_sign (c : Char) (cs : List Char) (h1 : c ≠ '+') (h2 : c ≠ '-') :
    parseSign (c :: cs) = (false, c :: cs) := by
  simp only [parseSign, if_neg h1, if_neg h2]

theorem parseSign_minus (cs : List Char) : parseSign ('-' :: cs) = (true, cs) := by
  simp [parseSign]

theorem parseSign_plus (cs : List Char) : parseSign ('+' :: cs) = (false, cs) := by
  simp [parseSign]

/-- Evaluation of the sign-free float parser on a digit string with an
optional fraction and no exponent. -/
theorem floatSplitFrac_nil : floatSplitFrac [] = ([], []) := rfl

/-- Unfolding the fraction splitter on a nonempty remainder. -/
theorem floatSplitFrac_cons (c : Char) (r : List Char) :
    floatSplitFrac (c :: r) =
      if c = '.' then (r.takeWhile isDigitB, r.dropWhile isDigitB) else ([], c :: r) := rfl

/-- Unfolding the tail parser on an exhausted token. -/
theorem floatTail_nil (s m : ℚ) : floatTail s m [] = some (s * m) := rfl

/-- Unfolding the tail parser on a nonempty remainder. -/
theorem floatTail_cons (s m : ℚ) (c : Char) (r : List Char) :
    floatTail s m (c :: r) =
      if c = 'e' ∨ c = 'E' then parseExp s m r else none := rfl

theorem parseFloatCore_noexp (neg : Bool) (ds1 ds2 : List ℕ)
    (h1 : ds1 ≠ []) (hd1 : ∀ d ∈ ds1, d < 10) (hd2 : ∀ d ∈ ds2, d < 10) :
    parseFloatCore neg (ds1.map digitToChar ++ fracPart ds2) =
      some ((if neg then -1 else 1) *
        ((((ds1 ++ ds2).foldl (fun a d => a * 10 + d) 0 : ℕ) : ℚ) / 10 ^ ds2.length)) := by
  have hall1 : ∀ c ∈ ds1.map digitToChar, isDigitB c = true := by
    intro c hc
    obtain ⟨d, _, rfl⟩ := List.mem_map.mp hc
    exact isDigitB_digitToChar d
  have hall2 : ∀ c ∈ ds2.map digitToChar, isDigitB c = true := by
    intro c hc
    obtain ⟨d, _, rfl⟩ := List.mem_map.mp hc
    exact isDigitB_digitToChar d
  have hmapne : ds1.map digitToChar ≠ [] := by
    intro h
    exact h1 (List.map_eq_nil_iff.mp h)
  by_cases hds2 : ds2 = []
  · subst hds2
    rw [fracPart, if_pos rfl]
    obtain ⟨hspan1, hspan2⟩ := span_digits (ds1.map digitToChar) []
      hall1 (fun c hc => by simp at hc)
    simp only [parseFloatCore, hspan1, hspan2, floatSplitFrac_nil]
    rw [if_neg (by simpa using hmapne)]
    simp only [floatTail_nil, List.append_nil]
    rw [parseDigitsLoop_digits ds1 hd1]
    norm_num
  · rw [fracPart, if_neg hds2]
    obtain ⟨hspan1, hspan2⟩ := span_digits (ds1.map digitToChar)
      ('.' :: ds2.map digitToChar) hall1
      (fun c hc => by rw [List.head?_cons] at hc; rw [← Option.some.inj hc]; decide)
    obtain ⟨hspan3, hspan4⟩ := span_digits (ds2.map digitToChar) [] hall2
      (fun c hc => by simp at hc)
    rw [List.append_nil] at hspan3 hspan4
    simp only [parseFloatCore, hspan1, hspan2, floatSplitFrac_cons, eq_self_iff_true,
      if_true, hspan3, hspan4]
    rw [if_neg (by simp [hmapne])]
    simp only [floatTail_nil]
    rw [← List.map_append, parseDigitsLoop_digits _ (by
      intro d hd
      rcases List.mem_append.mp hd with h | h
      · exact hd1 d h
      · exact hd2 d h)]
    rw [List.length_map]

/-- Evaluation of the sign-free float parser on a digit string with an
optional fraction and an explicit signed exponent. -/
theorem parseFloatCore_exp (neg eneg : Bool) (ds1 ds2 : List ℕ) (echars : List Char)
    (h1 : ds1 ≠ []) (hd1 : ∀ d ∈ ds1, d < 10) (hd2 : ∀ d ∈ ds2, d < 10)
    (he1 : echars ≠ []) (he2 : ∀ c ∈ echars, isDigitB c = true) :
    parseFloatCore neg (ds1.map digitToChar ++ fracPart ds2 ++
        'e' :: (if eneg then '-' else '+') :: echars) =
      some ((if neg then -1 else 1) *
        ((((ds1 ++ ds2).foldl (fun a d => a * 10 + d) 0 : ℕ) : ℚ) / 10 ^ ds2.length) *
        (10 : ℚ) ^ ((if eneg then -1 else 1) * (parseDigitsLoop 0 echars : ℤ))) := by
  have hall1 : ∀ c ∈ ds1.map digitToChar, isDigitB c = true := by
    intro c hc
    obtain ⟨d, _, rfl⟩ := List.mem_map.mp hc
    exact isDigitB_digitToChar d
  have hall2 : ∀ c ∈ ds2.map digitToChar, isDigitB c = true := by
    intro c hc
    obtain ⟨d, _, rfl⟩ := List.mem_map.mp hc
    exact isDigitB_digitToChar d
  have hmapne : ds1.map digitToChar ≠ [] := by
    intro h
    exact h1 (List.map_eq_nil_iff.mp h)
  have hsgn : parseSign ((if eneg then '-' else '+') :: echars) = (eneg, echars) := by
    cases eneg
    · simp [parseSign_plus]
    · simp [parseSign_minus]
  have hexp : ∀ s m : ℚ, parseExp s m ((if eneg then '-' else '+') :: echars) =
      some (s * m *
        (10 : ℚ) ^ ((if eneg then -1 else 1) * (parseDigitsLoop 0 echars : ℤ))) := by
    intro s m
    simp only [parseExp, hsgn]
    rw [if_pos ⟨he1, List.all_eq_true.mpr he2⟩]
  by_cases hds2 : ds2 = []
  · subst hds2
    rw [fracPart, if_pos rfl, List.append_nil]
    obtain ⟨hspan1, hspan2⟩ := span_digits (ds1.map digitToChar)
      ('e' :: (if eneg then '-' else '+') :: echars) hall1
      (fun c hc => by rw [List.head?_cons] at hc; rw [← Option.some.inj hc]; decide)
    simp only [parseFloatCore, hspan1, hspan2, floatSplitFrac_cons,
      eq_false (show ¬ ('e' : Char) = '.' by decide), if_false]
    rw [if_neg (by simpa using hmapne)]
    simp only [floatTail_cons, eq_self_iff_true, true_or, if_true, List.append_nil]
    rw [parseDigitsLoop_digits ds1 hd1]
    rw [hexp]
    simp
  · rw [fracPart, if_neg hds2, List.append_assoc]
    obtain ⟨hspan1, hspan2⟩ := span_digits (ds1.map digitToChar)
      ('.' :: (ds2.map digitToChar ++ 'e' :: (if eneg then '-' else '+') :: echars)) hall1
      (fun c hc => by rw [List.head?_cons] at hc; rw [← Option.some.inj hc]; decide)
    obtain ⟨hspan3, hspan4⟩ := span_digits (ds2.map digitToChar)
      ('e' :: (if eneg then '-' else '+') :: echars) hall2
      (fun c hc => by rw [List.head?_cons] at hc; rw [← Option.some.inj hc]; decide)
    rw [← List.cons_append] at hspan1 hspan2
    simp only [parseFloatCore, hspan1, hspan2]
    rw [List.cons_append]
    simp only [floatSplitFrac_cons, eq_self_iff_true, if_true, hspan3, hspan4]
    rw [if_neg (by simp [hmapne])]
    rw [floatTail_cons]
    rw [if_pos (show ('e' : Char) = 'e' ∨ ('e' : Char) = 'E' from Or.inl rfl)]
    rw [← List.map_append, parseDigitsLoop_digits _ (by
      intro d hd
      rcases List.mem_append.mp hd with h | h
      · exact hd1 d h
      · exact hd2 d h)]
    rw [List.length_map]
    exact hexp _ _

/- # Trailing-zero stripping -/

theorem mem_stripTrailingZeros (l : List ℕ) (d : ℕ) (hd : d ∈ stripTrailingZeros l) :
    d ∈ l := by
  rw [stripTrailingZeros, List.mem_reverse] at hd
  exact List.mem_reverse.mp ((List.dropWhile_sublist _).subset hd)

/-- Stripping a one-digit fraction. -/
theorem strip1_spec (d0 : ℕ) :
    stripTrailingZeros [d0] = if d0 = 0 then [] else [d0] := by
  by_cases h0 : d0 = 0 <;>
    simp [stripTrailingZeros, List.dropWhile_cons, h0]

/-- Stripping a two-digit fraction. -/
theorem strip2_spec (d1 d0 : ℕ) :
    stripTrailingZeros [d1, d0] =
      if d0 = 0 then if d1 = 0 then [] else [d1] else [d1, d0] := by
  by_cases h0 : d0 = 0 <;> by_cases h1 : d1 = 0 <;>
    simp [stripTrailingZeros, List.dropWhile_cons, h0, h1]

/-- Stripping a three-digit group with a nonzero leading digit. -/
theorem strip3_spec (d2 d1 d0 : ℕ) (h2 : d2 ≠ 0) :
    stripTrailingZeros [d2, d1, d0] =
      if d0 = 0 then if d1 = 0 then [d2] else [d2, d1] else [d2, d1, d0] := by
  by_cases h0 : d0 = 0 <;> by_cases h1 : d1 = 0 <;>
    simp [stripTrailingZeros, List.dropWhile_cons, h0, h1, h2]

theorem strip3_ne_nil (d2 d1 d0 : ℕ) (h2 : d2 ≠ 0) :
    stripTrailingZeros [d2, d1, d0] ≠ [] := by
  rw [strip3_spec _ _ _ h2]
  by_cases h0 : d0 = 0 <;> by_cases h1 : d1 = 0 <;> simp [h0, h1]

/-- Mantissa value of a leading digit and a stripped two-digit fraction. -/
theorem strip2_mant (d2 d1 d0 : ℕ) :
    ((((d2 :: stripTrailingZeros [d1, d0]).foldl (fun a d => a * 10 + d) 0 : ℕ)) : ℚ) /
      10 ^ (stripTrailingZeros [d1, d0]).length =
      ((100 * d2 + 10 * d1 + d0 : ℕ) : ℚ) / 100 := by
  rw [strip2_spec]
  by_cases h0 : d0 = 0
  · by_cases h1 : d1 = 0
    · subst h0; subst h1
      rw [if_pos rfl, if_pos rfl]
      simp only [List.foldl_cons, List.foldl_nil, List.length_nil]
      push_cast
      ring
    · subst h0
      rw [if_pos rfl, if_neg h1]
      simp only [List.foldl_cons, List.foldl_nil, List.length_cons, List.length_nil]
      push_cast
      ring
  · rw [if_neg h0]
    simp only [List.foldl_cons, List.foldl_nil, List.length_cons, List.length_nil]
    push_cast
    ring

/-- Mantissa value of two leading digits and a stripped final digit. -/
theorem strip1_mant (d2 d1 d0 : ℕ) :
    ((((d2 :: d1 :: stripTrailingZeros [d0]).foldl (fun a d => a * 10 + d) 0 : ℕ)) : ℚ) /
      10 ^ (stripTrailingZeros [d0]).length =
      ((100 * d2 + 10 * d1 + d0 : ℕ) : ℚ) / 10 := by
  rw [strip1_spec]
  by_cases h0 : d0 = 0
  · subst h0
    rw [if_pos rfl]
    simp only [List.foldl_cons, List.foldl_nil, List.length_nil]
    push_cast
    ring
  · rw [if_neg h0]
    simp only [List.foldl_cons, List.foldl_nil, List.length_cons, List.length_nil]
    push_cast
    ring

/-- Fraction value of a stripped three-digit group shifted by `j` leading
zeros. -/
theorem strip3_frac (j d2 d1 d0 : ℕ) (h2 : d2 ≠ 0) :
    (((stripTrailingZeros [d2, d1, d0]).foldl (fun a d => a * 10 + d) 0 : ℕ) : ℚ) /
      10 ^ (j + (stripTrailingZeros [d2, d1, d0]).length) =
      ((100 * d2 + 10 * d1 + d0 : ℕ) : ℚ) / 10 ^ (j + 3) := by
  rw [strip3_spec _ _ _ h2]
  by_cases h0 : d0 = 0
  · by_cases h1 : d1 = 0
    · subst h0; subst h1
      rw [if_pos rfl, if_pos rfl]
      simp only [List.foldl_cons, List.foldl_nil, List.length_cons, List.length_nil]
      rw [div_eq_div_iff (by positivity) (by positivity)]
      push_cast
      ring
    · subst h0
      rw [if_pos rfl, if_neg h1]
      simp only [List.foldl_cons, List.foldl_nil, List.length_cons, List.length_nil]
      rw [div_eq_div_iff (by positivity) (by positivity)]
      push_cast
      ring
  · rw [if_neg h0]
    simp only [List.foldl_cons, List.foldl_nil, List.length_cons, List.length_nil]
    rw [div_eq_div_iff (by positivity) (by positivity)]
    push_cast
    ring

/- # Bounds on the three-digit mantissa -/

theorem sig3_zero : sig3 0 = (false, 0, 0) := by
  rw [sig3, if_pos rfl]

/-- Rounding a value of `[100, 1000)` lands in `[100, 1000]`. -/
theorem round_bounds (x : ℚ) (h1 : (100 : ℚ) ≤ x) (h2 : x < 1000) :
    (100 : ℤ) ≤ round x ∧ round x ≤ 1000 := by
  constructor
  · rw [round_eq, Int.le_floor]
    push_cast
    linarith
  · rw [round_eq]
    have h : (⌊x + 1 / 2⌋ : ℤ) < 1001 := by
      rw [Int.floor_lt]
      push_cast
      linarith
    omega

/-- The scaled absolute value rounded by `sig3` lies in `[100, 1000)` before
rounding. -/
theorem sig3_scaled_bounds (q : ℚ) (hq : q ≠ 0) :
    (100 : ℚ) ≤ |q| * (10 : ℚ) ^ ((2 : ℤ) - Int.log 10 |q|) ∧
      |q| * (10 : ℚ) ^ ((2 : ℤ) - Int.log 10 |q|) < 1000 := by
  have ha : (0 : ℚ) < |q| := abs_pos.mpr hq
  have hlow : ((10 : ℕ) : ℚ) ^ (Int.log 10 |q|) ≤ |q| :=
    Int.zpow_log_le_self (by norm_num) ha
  have hhigh : |q| < ((10 : ℕ) : ℚ) ^ (Int.log 10 |q| + 1) :=
    Int.lt_zpow_succ_log_self (by norm_num) |q|
  have hcast : ((10 : ℕ) : ℚ) = (10 : ℚ) := by norm_num
  rw [hcast] at hlow hhigh
  have hpow : (0 : ℚ) < (10 : ℚ) ^ ((2 : ℤ) - Int.log 10 |q|) :=
    zpow_pos (by norm_num) _
  have he1 : (10 : ℚ) ^ (Int.log 10 |q|) * (10 : ℚ) ^ ((2 : ℤ) - Int.log 10 |q|) = 100 := by
    rw [← zpow_add₀ (by norm_num : (10 : ℚ) ≠ 0)]
    norm_num
  have he2 : (10 : ℚ) ^ (Int.log 10 |q| + 1) * (10 : ℚ) ^ ((2 : ℤ) - Int.log 10 |q|) = 1000 := by
    rw [← zpow_add₀ (by norm_num : (10 : ℚ) ≠ 0)]
    have h3 : Int.log 10 |q| + 1 + ((2 : ℤ) - Int.log 10 |q|) = 3 := by ring
    rw [h3]
    norm_num
  have hb1 := mul_le_mul_of_nonneg_right hlow (le_of_lt hpow)
  have hb2 := mul_lt_mul_of_pos_right hhigh hpow
  constructor
  · linarith
  · linarith

/-- For nonzero inputs the three-digit mantissa of `sig3` lies in
`[100, 999]`. -/
theorem sig3_mantissa (q : ℚ) (hq : q ≠ 0) :
    100 ≤ (sig3 q).2.1 ∧ (sig3 q).2.1 ≤ 999 := by
  obtain ⟨h1, h2⟩ := sig3_scaled_bounds q hq
  obtain ⟨hr1, hr2⟩ := round_bounds _ h1 h2
  simp only [sig3, if_neg hq]
  by_cases hm : round (|q| * (10 : ℚ) ^ ((2 : ℤ) - Int.log 10 |q|)) = 1000
  · rw [if_pos hm]
    exact ⟨by norm_num, by norm_num⟩
  · rw [if_neg hm]
    refine ⟨?_, ?_⟩ <;> · dsimp only; omega

/- # Entering the float parser through the sign -/

/-- Splitting a rendered optional minus sign off the token. -/
theorem parseFloat_eval (s : Bool) (c : Char) (cs : List Char)
    (hc1 : c ≠ '+') (hc2 : c ≠ '-') :
    parseFloat ((if s then ['-'] else []) ++ c :: cs) = parseFloatCore s (c :: cs) := by
  cases s
  · simp only [Bool.false_eq_true, if_false, List.nil_append, parseFloat]
    rw [parseSign_no_sign c cs hc1 hc2]
  · simp only [eq_self_iff_true, if_true, List.singleton_append, parseFloat]
    rw [parseSign_minus]

/-- The printed exponent sign as a boolean test. -/
theorem expSign_char (e : ℤ) :
    (if e < 0 then '-' else '+') = (if decide (e < 0) = true then '-' else '+') := by
  by_cases h : e < 0 <;> simp [h]

/-- The signed exponent magnitude recovers the exponent. -/
theorem expSign_val (e : ℤ) :
    ((if decide (e < 0) = true then (-1 : ℤ) else 1) * ((e.natAbs : ℕ) : ℤ)) = e := by
  by_cases h : e < 0
  · simp only [decide_eq_true h, if_true]
    omega
  · simp only [decide_eq_false h, Bool.false_eq_true, if_false]
    omega

/- # Round-tripping each notation of the %.3g verb -/

/-- Scientific notation re-parses to the displayed value. -/
theorem parseFloat_fmtG3_sci (s : Bool) (m : ℕ) (e : ℤ) (hm1 : 100 ≤ m) (hm2 : m ≤ 999) :
    parseFloat ((if s then ['-'] else []) ++ digitToChar (m / 100) ::
        fracPart (stripTrailingZeros [m / 10 % 10, m % 10]) ++
        'e' :: (if e < 0 then '-' else '+') :: padTwo (natToChars e.natAbs)) =
      some ((if s then -1 else 1) * (m : ℚ) / 100 * (10 : ℚ) ^ e) := by
  rw [List.append_assoc, List.cons_append]
  rw [parseFloat_eval s _ _ (digitToChar_ne_special _).1 (digitToChar_ne_special _).2.1]
  have harg : digitToChar (m / 100) :: (fracPart (stripTrailingZeros [m / 10 % 10, m % 10]) ++
      'e' :: (if e < 0 then '-' else '+') :: padTwo (natToChars e.natAbs)) =
      [m / 100].map digitToChar ++ fracPart (stripTrailingZeros [m / 10 % 10, m % 10]) ++
        'e' :: (if e < 0 then '-' else '+') :: padTwo (natToChars e.natAbs) := by
    simp
  rw [harg, expSign_char e]
  rw [parseFloatCore_exp s (decide (e < 0)) [m / 100]
    (stripTrailingZeros [m / 10 % 10, m % 10]) (padTwo (natToChars e.natAbs))
    (by simp) (fun d hd => by simp at hd; omega)
    (fun d hd => by
      have h := mem_stripTrailingZeros _ _ hd
      simp at h
      rcases h with h | h <;> omega)
    (padTwo_ne_nil _ (natToChars_ne_nil _))
    (padTwo_digits _ (natToChars_digits _))]
  rw [parseDigitsLoop_padTwo, parseDigitsLoop_natToChars, expSign_val e]
  rw [List.singleton_append, strip2_mant]
  have hmdec : 100 * (m / 100) + 10 * (m / 10 % 10) + m % 10 = m := by omega
  rw [hmdec]
  congr 1
  ring

/-- Entering the parser on a token whose first character is a digit. -/
theorem parseFloat_eval_digits (s : Bool) (d : ℕ) (ds : List ℕ) (rest : List Char) :
    parseFloat ((if s then ['-'] else []) ++ ((d :: ds).map digitToChar ++ rest)) =
      parseFloatCore s ((d :: ds).map digitToChar ++ rest) := by
  have h : (d :: ds).map digitToChar ++ rest = digitToChar d :: (ds.map digitToChar ++ rest) := by
    simp
  rw [h, parseFloat_eval s _ _ (digitToChar_ne_special d).1 (digitToChar_ne_special d).2.1]

/-- Fixed notation with a nonnegative exponent re-parses to the displayed
value. -/
theorem parseFloat_fmtG3_fixed (s : Bool) (m : ℕ) (e : ℤ) (hm1 : 100 ≤ m) (hm2 : m ≤ 999)
    (he1 : 0 ≤ e) (he2 : e < 3) :
    parseFloat ((if s then ['-'] else []) ++
        (([m / 100, m / 10 % 10, m % 10].take (e.toNat + 1)).map digitToChar ++
          fracPart (stripTrailingZeros ([m / 100, m / 10 % 10, m % 10].drop (e.toNat + 1))))) =
      some ((if s then -1 else 1) * (m : ℚ) / 100 * (10 : ℚ) ^ e) := by
  have hmdec : 100 * (m / 100) + 10 * (m / 10 % 10) + m % 10 = m := by omega
  interval_cases e
  · rw [show ([m / 100, m / 10 % 10, m % 10].take (((0 : ℤ)).toNat + 1)) = [m / 100] from rfl,
      show ([m / 100, m / 10 % 10, m % 10].drop (((0 : ℤ)).toNat + 1)) =
        [m / 10 % 10, m % 10] from rfl]
    rw [parseFloat_eval_digits s (m / 100) [] _]
    rw [parseFloatCore_noexp s [m / 100] (stripTrailingZeros [m / 10 % 10, m % 10])
      (by simp) (fun d hd => by simp at hd; omega)
      (fun d hd => by
        have h := mem_stripTrailingZeros _ _ hd
        simp at h
        rcases h with h | h <;> omega)]
    rw [List.singleton_append, strip2_mant, hmdec]
    rw [show ((10 : ℚ) ^ (0 : ℤ)) = 1 from zpow_zero 10]
    congr 1
    ring
  · rw [show ([m / 100, m / 10 % 10, m % 10].take (((1 : ℤ)).toNat + 1)) =
        [m / 100, m / 10 % 10] from rfl,
      show ([m / 100, m / 10 % 10, m % 10].drop (((1 : ℤ)).toNat + 1)) = [m % 10] from rfl]
    rw [parseFloat_eval_digits s (m / 100) [m / 10 % 10] _]
    rw [parseFloatCore_noexp s [m / 100, m / 10 % 10] (stripTrailingZeros [m % 10])
      (by simp) (fun d hd => by simp at hd; rcases hd with h | h <;> omega)
      (fun d hd => by
        have h := mem_stripTrailingZeros _ _ hd
        simp at h
        omega)]
    rw [show ([m / 100, m / 10 % 10] ++ stripTrailingZeros [m % 10]) =
        (m / 100) :: (m / 10 % 10) :: stripTrailingZeros [m % 10] from rfl]
    rw [strip1_mant, hmdec]
    rw [show ((10 : ℚ) ^ (1 : ℤ)) = 10 from zpow_one 10]
    congr 1
    ring
  · rw [show ([m / 100, m / 10 % 10, m % 10].take (((2 : ℤ)).toNat + 1)) =
        [m / 100, m / 10 % 10, m % 10] from rfl,
      show ([m / 100, m / 10 % 10, m % 10].drop (((2 : ℤ)).toNat + 1)) = [] from rfl,
      show stripTrailingZeros ([] : List ℕ) = [] from rfl]
    rw [parseFloat_eval_digits s (m / 100) [m / 10 % 10, m % 10] _]
    rw [parseFloatCore_noexp s [m / 100, m / 10 % 10, m % 10] []
      (by simp) (fun d hd => by simp at hd; rcases hd with h | h | h <;> omega)
      (by simp)]
    rw [List.append_nil]
    simp only [List.foldl_cons, List.foldl_nil, List.length_nil]
    rw [show (0 * 10 + m / 100) * 10 + m / 10 % 10 = 10 * (m / 100) + m / 10 % 10 from by omega]
    rw [show (10 * (m / 100) + m / 10 % 10) * 10 + m % 10 = m from by omega]
    rw [show ((10 : ℚ) ^ (2 : ℤ)) = 100 from by norm_num]
    congr 1
    norm_num

/-- Fixed notation with leading zeros (exponent `-4 ≤ e < 0`) re-parses to
the displayed value. -/
theorem parseFloat_fmtG3_neg (s : Bool) (m : ℕ) (e : ℤ) (hm1 : 100 ≤ m) (hm2 : m ≤ 999)
    (he : e < 0) :
    parseFloat ((if s then ['-'] else []) ++
        ('0' :: '.' :: (List.replicate (e.natAbs - 1) '0'
          ++ (stripTrailingZeros [m / 100, m / 10 % 10, m % 10]).map digitToChar))) =
      some ((if s then -1 else 1) * (m : ℚ) / 100 * (10 : ℚ) ^ e) := by
  have hmdec : 100 * (m / 100) + 10 * (m / 10 % 10) + m % 10 = m := by omega
  have h2ne : m / 100 ≠ 0 := by omega
  generalize hj : e.natAbs - 1 = j
  have hje : e = -((j : ℤ) + 1) := by omega
  have hne : (List.replicate j (0 : ℕ) ++
      stripTrailingZeros [m / 100, m / 10 % 10, m % 10]) ≠ [] := by
    intro hcon
    rcases List.append_eq_nil.mp hcon with ⟨-, h2⟩
    exact strip3_ne_nil _ _ _ h2ne h2
  have hfrac : fracPart (List.replicate j 0 ++
      stripTrailingZeros [m / 100, m / 10 % 10, m % 10]) =
      '.' :: (List.replicate j '0'
        ++ (stripTrailingZeros [m / 100, m / 10 % 10, m % 10]).map digitToChar) := by
    rw [fracPart, if_neg hne, List.map_append, List.map_replicate,
      show digitToChar 0 = '0' from rfl]
  have h0p : ('0' : Char) ≠ '+' := by decide
  have h0m : ('0' : Char) ≠ '-' := by decide
  rw [parseFloat_eval s _ _ h0p h0m]
  rw [show ('0' :: '.' :: (List.replicate j '0'
        ++ (stripTrailingZeros [m / 100, m / 10 % 10, m % 10]).map digitToChar) : List Char) =
      ([0] : List ℕ).map digitToChar ++ fracPart (List.replicate j 0 ++
        stripTrailingZeros [m / 100, m / 10 % 10, m % 10]) from by rw [hfrac]; rfl]
  rw [parseFloatCore_noexp s [0]
    (List.replicate j 0 ++ stripTrailingZeros [m / 100, m / 10 % 10, m % 10])
    (by simp) (fun d hd => by simp at hd; omega)
    (fun d hd => by
      rcases List.mem_append.mp hd with h | h
      · rw [List.eq_of_mem_replicate h]; omega
      · have h2 := mem_stripTrailingZeros _ _ h
        simp at h2
        rcases h2 with h2 | h2 | h2 <;> omega)]
  rw [show (([0] : List ℕ) ++ (List.replicate j 0 ++
      stripTrailingZeros [m / 100, m / 10 % 10, m % 10])) =
      List.replicate (j + 1) 0 ++ stripTrailingZeros [m / 100, m / 10 % 10, m % 10] from by
    simp [List.replicate_succ]]
  rw [foldl_digits_zeros, List.length_append, List.length_replicate]
  rw [strip3_frac j _ _ _ h2ne, hmdec]
  rw [hje]
  congr 1
  rw [zpow_neg, show ((j : ℤ) + 1) = ((j + 1 : ℕ) : ℤ) from by push_cast; ring, zpow_natCast]
  field_simp
  ring_nf

/-- A `%.3g`-formatted cell re-parses to the value rounded to three
significant digits. -/
theorem parseFloat_fmtG3 (q : ℚ) : parseFloat (fmtG3 q) = some (roundSig3 q) := by
  by_cases hq : q = 0
  · subst hq
    have h1 : fmtG3 0 = ['0'] := by
      simp only [fmtG3, sig3_zero]
      norm_num
    have h2 : parseFloat (['0'] : List Char) = parseFloatCore false ['0'] := by
      simp only [parseFloat]
      rw [parseSign_no_sign '0' [] (by decide) (by decide)]
    rw [h1, h2,
      show (['0'] : List Char) = ([0] : List ℕ).map digitToChar ++ fracPart ([] : List ℕ)
        from rfl,
      parseFloatCore_noexp false [0] [] (by simp) (by simp) (by simp)]
    simp only [roundSig3, sig3_zero]
    norm_num
  · rcases hsig : sig3 q with ⟨s, m, e⟩
    obtain ⟨hm1, hm2⟩ := sig3_mantissa q hq
    rw [hsig] at hm1 hm2
    dsimp only at hm1 hm2
    have hm0 : m ≠ 0 := by omega
    simp only [fmtG3, roundSig3, hsig]
    rw [if_neg hm0]
    by_cases hsci : e < -4 ∨ 3 ≤ e
    · rw [if_pos hsci]
      exact parseFloat_fmtG3_sci s m e hm1 hm2
    · rw [if_neg hsci]
      push_neg at hsci
      obtain ⟨hge, hlt⟩ := hsci
      by_cases hnn : 0 ≤ e
      · rw [if_pos hnn]
        rw [List.append_assoc]
        exact parseFloat_fmtG3_fixed s m e hm1 hm2 hnn hlt
      · rw [if_neg hnn]
        rw [List.append_assoc, List.cons_append, List.cons_append]
        exact parseFloat_fmtG3_neg s m e hm1 hm2 (by omega)

/- # Character classes of the rendered text -/

theorem isDigitB_toNat (c : Char) (h : isDigitB c = true) :
    48 ≤ c.toNat ∧ c.toNat ≤ 57 := by
  rw [isDigitB, decide_eq_true_eq] at h
  obtain ⟨h1, h2⟩ := h
  rw [Char.le_def] at h1 h2
  exact ⟨h1, h2⟩

/-- A character with a Nat code is that character. -/
theorem char_of_toNat (c : Char) (n : ℕ) (b : Char) (h : c.toNat = n) (hb : b.toNat = n) :
    c = b := by
  apply Char.ext
  apply UInt32.toNat.inj
  exact h.trans hb.symm

/-- Decimal digits are not white space. -/
theorem isDigitB_not_space (c : Char) (h : isDigitB c = true) : isSpaceGo c = false := by
  obtain ⟨h1, h2⟩ := isDigitB_toNat c h
  rw [isSpaceGo, decide_eq_false_iff_not]
  rintro (rfl | rfl | rfl | rfl | hc | hc)
  · exact absurd h (by decide)
  · exact absurd h (by decide)
  · exact absurd h (by decide)
  · exact absurd h (by decide)
  · rw [char_of_toNat c 11 '\x0b' hc (by decide)] at h
    exact absurd h (by decide)
  · rw [char_of_toNat c 12 '\x0c' hc (by decide)] at h
    exact absurd h (by decide)

/-- Decimal digits carry no sign and end no line. -/
theorem isDigitB_ne_special (c : Char) (h : isDigitB c = true) :
    c ≠ '+' ∧ c ≠ '-' ∧ c ≠ '\n' ∧ c ≠ '\r' := by
  refine ⟨?_, ?_, ?_, ?_⟩ <;> · rintro rfl; exact absurd h (by decide)

/-- A non-space character is not a newline. -/
theorem not_space_ne_newline (c : Char) (h : isSpaceGo c = false) : c ≠ '\n' := by
  rintro rfl
  exact absurd h (by decide)

/- # Header-line helpers -/

theorem dropWhile_all_false (p : Char → Bool) (l : List Char)
    (h : ∀ c ∈ l, p c = false) : l.dropWhile p = l := by
  cases l with
  | nil => rfl
  | cons c cs =>
    rw [List.dropWhile_cons, h c (List.mem_cons_self c cs)]
    simp

/-- Trimming the newline off a rendered digit line. -/
theorem trimRight_digits (l : List Char) (hl : ∀ c ∈ l, isDigitB c = true) :
    trimRight (l ++ ['\n']) = l := by
  rw [trimRight, List.reverse_append]
  simp only [List.reverse_cons, List.reverse_nil, List.nil_append, List.singleton_append]
  rw [List.dropWhile_cons, if_pos (by decide)]
  rw [dropWhile_all_false _ _ (fun c hc => by
    have hd := hl c (List.mem_reverse.mp hc)
    obtain ⟨-, h2, h3, h4⟩ := isDigitB_ne_special c hd
    rw [decide_eq_false_iff_not]
    rintro (rfl | rfl)
    · exact h4 rfl
    · exact h3 rfl)]
  rw [List.reverse_reverse]

/-- `parseSign` consumes nothing from a digit string. -/
theorem parseSign_digits (l : List Char) (hne : l ≠ []) (hl : ∀ c ∈ l, isDigitB c = true) :
    parseSign l = (false, l) := by
  cases l with
  | nil => exact absurd rfl hne
  | cons c cs =>
    have hd := hl c (List.mem_cons_self c cs)
    obtain ⟨h1, h2, -, -⟩ := isDigitB_ne_special c hd
    exact parseSign_no_sign c cs h1 h2

/-- `strconv.Atoi` inverts the decimal rendering. -/
theorem atoi_natToChars (n : ℕ) : atoi (natToChars n) = some (n : ℤ) := by
  rw [atoi, parseSign_digits _ (natToChars_ne_nil n) (natToChars_digits n)]
  rw [if_pos ⟨natToChars_ne_nil n, List.all_eq_true.mpr (natToChars_digits n)⟩]
  simp [parseDigitsLoop_natToChars]

/-- `ReadString` on a newline-terminated line. -/
theorem readString_line (l rest : List Char) (h : '\n' ∉ l) :
    readString (l ++ '\n' :: rest) = (l ++ ['\n'], false, rest) := by
  induction l with
  | nil =>
    simp only [List.nil_append]
    rw [readString, if_pos rfl]
  | cons c cs ih =>
    have hc : c ≠ '\n' := fun hc => h (hc ▸ List.mem_cons_self c cs)
    have hcs : '\n' ∉ cs := fun hm => h (List.mem_cons_of_mem c hm)
    simp only [List.cons_append, readString, if_neg hc]
    rw [show cs.append ('\n' :: rest) = cs ++ '\n' :: rest from rfl, ih hcs]

/- # Fields of a rendered row -/

/-- Every token split off by the word accumulator is nonempty and free of
white space. -/
theorem fieldsAux_tokens (cs : List Char) :
    ∀ acc, (∀ c ∈ acc, isSpaceGo c = false) →
      ∀ t ∈ fieldsAux acc cs, t ≠ [] ∧ ∀ c ∈ t, isSpaceGo c = false := by
  induction cs with
  | nil =>
    intro acc hacc t ht
    rw [fieldsAux] at ht
    split at ht
    · simp at ht
    · rcases List.mem_singleton.mp ht with rfl
      constructor
      · simpa using (by assumption : ¬ acc = [])
      · intro c hc
        exact hacc c (List.mem_reverse.mp hc)
  | cons c cs ih =>
    intro acc hacc t ht
    rw [fieldsAux] at ht
    by_cases hsp : isSpaceGo c = true
    · rw [if_pos hsp] at ht
      split at ht
      · exact ih [] (by simp) t ht
      · rcases List.mem_cons.mp ht with rfl | ht2
        · constructor
          · simpa using (by assumption : ¬ acc = [])
          · intro x hx
            exact hacc x (List.mem_reverse.mp hx)
        · exact ih [] (by simp) t ht2
    · rw [if_neg hsp] at ht
      refine ih (c :: acc) ?_ t ht
      intro x hx
      rcases List.mem_cons.mp hx with rfl | hx2
      · simpa using hsp
      · exact hacc x hx2

/-- The accumulator swallows a run of non-space characters. -/
theorem fieldsAux_nonspace (w : List Char) (hw : ∀ c ∈ w, isSpaceGo c = false) :
    ∀ acc r, fieldsAux acc (w ++ r) = fieldsAux (w.reverse ++ acc) r := by
  induction w with
  | nil => intro acc r; simp
  | cons c cs ih =>
    intro acc r
    have hc : isSpaceGo c = false := hw c (List.mem_cons_self c cs)
    rw [List.cons_append, fieldsAux, if_neg (by simp [hc])]
    rw [ih (fun x hx => hw x (List.mem_cons_of_mem c hx)) (c :: acc) r]
    simp

/-- Fields of the rendered cell block: every two-space gutter plus token
yields exactly that token. -/
theorem fieldsAux_cells (toks : List (List Char))
    (htoks : ∀ t ∈ toks, t ≠ [] ∧ ∀ c ∈ t, isSpaceGo c = false) :
    ∀ acc, acc ≠ [] →
      fieldsAux acc ((toks.map (fun t => ' ' :: ' ' :: t)).flatten ++ ['\n']) =
        acc.reverse :: toks := by
  induction toks with
  | nil =>
    intro acc hacc
    simp only [List.map_nil, List.flatten_nil, List.nil_append]
    rw [fieldsAux, if_pos (by decide), if_neg hacc, fieldsAux, if_pos rfl]
  | cons t toks ih =>
    intro acc hacc
    simp only [List.map_cons, List.flatten_cons, List.cons_append, List.append_assoc]
    rw [fieldsAux, if_pos (by decide), if_neg hacc]
    rw [fieldsAux, if_pos (by decide), if_pos rfl]
    obtain ⟨ht1, ht2⟩ := htoks t (List.mem_cons_self t toks)
    rw [fieldsAux_nonspace t ht2 [] _]
    rw [List.append_nil]
    rw [ih (fun x hx => htoks x (List.mem_cons_of_mem t hx)) t.reverse (by simpa using ht1)]
    rw [List.reverse_reverse]

/-- Fields of a full rendered row: the name, then the cell tokens. -/
theorem fields_row (name : List Char) (toks : List (List Char))
    (hn1 : name ≠ []) (hn2 : ∀ c ∈ name, isSpaceGo c = false)
    (htoks : ∀ t ∈ toks, t ≠ [] ∧ ∀ c ∈ t, isSpaceGo c = false) :
    fields (name ++ (toks.map (fun t => ' ' :: ' ' :: t)).flatten ++ ['\n']) =
      name :: toks := by
  rw [fields, List.append_assoc, fieldsAux_nonspace name hn2 [] _, List.append_nil]
  rw [fieldsAux_cells toks htoks name.reverse (by simpa using hn1)]
  rw [List.reverse_reverse]

/- # The rendered cell is a clean token -/

theorem fracPart_no_space (ds : List ℕ) : ∀ c ∈ fracPart ds, isSpaceGo c = false := by
  intro c hc
  rw [fracPart] at hc
  split at hc
  · simp at hc
  · rcases List.mem_cons.mp hc with rfl | hc2
    · decide
    · obtain ⟨d, -, rfl⟩ := List.mem_map.mp hc2
      exact digitToChar_not_space d

theorem natToChars_no_space (n : ℕ) : ∀ c ∈ natToChars n, isSpaceGo c = false :=
  fun c hc => isDigitB_not_space c (natToChars_digits n c hc)

theorem padTwo_no_space (l : List Char) (hl : ∀ c ∈ l, isSpaceGo c = false) :
    ∀ c ∈ padTwo l, isSpaceGo c = false := by
  intro c hc
  rw [padTwo] at hc
  split at hc
  · rcases List.mem_cons.mp hc with rfl | hc2
    · decide
    · exact hl c hc2
  · exact hl c hc

/-- No character printed by `%.3g` is white space. -/
theorem fmtG3_no_space (q : ℚ) : ∀ c ∈ fmtG3 q, isSpaceGo c = false := by
  intro c hc
  simp only [fmtG3] at hc
  split at hc
  · rcases List.mem_singleton.mp hc with rfl
    decide
  · split at hc
    · rcases List.mem_append.mp hc with hc1 | hc1
      · rcases List.mem_append.mp hc1 with hc2 | hc2
        · split at hc2
          · rcases List.mem_singleton.mp hc2 with rfl
            decide
          · simp at hc2
        · rcases List.mem_cons.mp hc2 with rfl | hc3
          · exact digitToChar_not_space _
          · exact fracPart_no_space _ c hc3
      · rcases List.mem_cons.mp hc1 with rfl | hc2
        · decide
        · rcases List.mem_cons.mp hc2 with rfl | hc3
          · split <;> decide
          · exact padTwo_no_space _ (natToChars_no_space _) c hc3
    · split at hc
      · rcases List.mem_append.mp hc with hc1 | hc1
        · rcases List.mem_append.mp hc1 with hc2 | hc2
          · split at hc2
            · rcases List.mem_singleton.mp hc2 with rfl
              decide
            · simp at hc2
          · obtain ⟨d, -, rfl⟩ := List.mem_map.mp hc2
            exact digitToChar_not_space d
        · exact fracPart_no_space _ c hc1
      · rcases List.mem_append.mp hc with hc1 | hc1
        · rcases List.mem_append.mp hc1 with hc2 | hc2
          · split at hc2
            · rcases List.mem_singleton.mp hc2 with rfl
              decide
            · simp at hc2
          · rcases List.mem_cons.mp hc2 with rfl | hc3
            · decide
            · rcases List.mem_cons.mp hc3 with rfl | hc4
              · decide
              · rw [List.eq_of_mem_replicate hc4]
                decide
        · obtain ⟨d, -, rfl⟩ := List.mem_map.mp hc1
          exact digitToChar_not_space d

/-- `%.3g` always prints something. -/
theorem fmtG3_ne_nil (q : ℚ) : fmtG3 q ≠ [] := by
  simp only [fmtG3]
  split
  · simp
  · split
    · intro h
      rcases List.append_eq_nil.mp h with ⟨h1, -⟩
      rcases List.append_eq_nil.mp h1 with ⟨-, h2⟩
      exact List.cons_ne_nil _ _ h2
    · split
      · intro h
        rcases List.append_eq_nil.mp h with ⟨h1, -⟩
        rcases List.append_eq_nil.mp h1 with ⟨-, h2⟩
        rw [List.map_eq_nil_iff, List.take_eq_nil_iff] at h2
        rcases h2 with h2 | h2
        · omega
        · exact absurd h2 (by simp)
      · intro h
        rcases List.append_eq_nil.mp h with ⟨h1, -⟩
        rcases List.append_eq_nil.mp h1 with ⟨-, h2⟩
        exact List.cons_ne_nil _ _ h2

/- # The cell loop on a fully populated row -/

theorem setCell_length (m : List (List ℚ)) (i j : ℕ) (v : ℚ) :
    (setCell m i j v).length = m.length := by
  rw [setCell, List.length_set]

theorem setCell_row_length (m : List (List ℚ)) (i j : ℕ) (v : ℚ) (a : ℕ) :
    ((setCell m i j v).getD a []).length = (m.getD a []).length := by
  by_cases ha : a = i
  · subst ha
    by_cases hl : a < m.length
    · rw [setCell, getD_set_self _ _ _ hl, List.length_set]
    · rw [setCell, List.set_eq_of_length_le (by omega)]
  · rw [setCell, getD_set_ne _ (fun h => ha h.symm)]

theorem setCell_getD_ne (m : List (List ℚ)) {i a : ℕ} (h : a ≠ i) (j : ℕ) (v : ℚ) :
    (setCell m i j v).getD a [] = m.getD a [] := by
  rw [setCell, getD_set_ne _ (fun hh => h hh.symm)]

/-- The inner cell loop succeeds on a row whose fields `1..n` all parse, and
fills row `i` columns `j-1..n-1` with the parsed values. -/
theorem scanRowCells_spec (n : ℕ) (fs : List (List Char)) (i : ℕ) (w : ℕ → ℚ)
    (hw : ∀ j, 1 ≤ j → j ≤ n → parseFloat (fs.getD j []) = some (w j))
    (hlen : fs.length = n + 1) :
    ∀ fuel j mat, j + fuel = n + 1 → 1 ≤ j →
      ∃ mat' : DistMat, scanRowCells n fs i fuel j mat = (.success, mat') ∧
        mat'.Names = mat.Names ∧
        mat'.Matrix.length = mat.Matrix.length ∧
        (∀ a, a ≠ i → mat'.Matrix.getD a [] = mat.Matrix.getD a []) ∧
        (mat'.Matrix.getD i []).length = (mat.Matrix.getD i []).length ∧
        (∀ c, c < j - 1 ∨ n ≤ c →
          (mat'.Matrix.getD i []).getD c 0 = (mat.Matrix.getD i []).getD c 0) ∧
        (∀ c, j - 1 ≤ c → c < n → c < (mat.Matrix.getD i []).length →
          i < mat.Matrix.length →
          (mat'.Matrix.getD i []).getD c 0 = w (c + 1)) := by
  intro fuel
  induction fuel with
  | zero =>
    intro j mat hj h1
    refine ⟨mat, rfl, rfl, rfl, fun a _ => rfl, rfl, fun c _ => rfl, fun c hc1 hc2 _ _ => ?_⟩
    omega
  | succ fuel ih =>
    intro j mat hj h1
    have hjn : j ≤ n := by omega
    have hjlt : j < fs.length := by omega
    obtain ⟨mat', hrun, hnm, hml, hother, hrl, hout, hin⟩ :=
      ih (j + 1) ⟨setCell mat.Matrix i (j - 1) (w j), mat.Names⟩ (by omega) (by omega)
    refine ⟨mat', ?_, ?_, ?_, ?_, ?_, ?_, ?_⟩
    · rw [scanRowCells, if_pos hjlt, hw j h1 hjn]
      exact hrun
    · exact hnm
    · rw [hml]
      exact setCell_length _ _ _ _
    · intro a ha
      rw [hother a ha, setCell_getD_ne _ ha]
    · rw [hrl, setCell_row_length]
    · intro c hc
      rw [hout c (by omega)]
      rcases hc with hc | hc
      · by_cases hl : i < mat.Matrix.length
        · rw [setCell, getD_set_self _ _ _ hl, getD_set_ne _ (by omega)]
        · rw [setCell, List.set_eq_of_length_le (by omega)]
      · by_cases hl : i < mat.Matrix.length
        · rw [setCell, getD_set_self _ _ _ hl, getD_set_ne _ (by omega)]
        · rw [setCell, List.set_eq_of_length_le (by omega)]
    · intro c hc1 hc2 hc3 hc4
      by_cases hcj : c = j - 1
      · subst hcj
        rw [hout _ (by omega)]
        rw [setCell, getD_set_self _ _ _ hc4, getD_set_self _ _ _ hc3]
        congr 1
        omega
      · rw [hin c (by omega) hc2 (by rw [setCell_row_length]; exact hc3)
          (by rw [setCell_length]; exact hc4)]

/- # The row loop on rendered rows -/

/-- One successful iteration of the row loop on a newline-terminated line. -/
theorem scanRows_step_success (n fuel : ℕ) (mat mat2 : DistMat) (line rem : List Char)
    (hnl : '\n' ∉ line) (name : List Char) (toks : List (List Char))
    (hf : fields (line ++ ['\n']) = name :: toks)
    (hsc : scanRowCells n (name :: toks) (n - (fuel + 1)) n 1
        ⟨mat.Matrix, mat.Names.set (n - (fuel + 1)) (String.mk name)⟩ =
      (.success, mat2)) :
    scanRows n (fuel + 1) mat (line ++ '\n' :: rem) = scanRows n fuel mat2 rem := by
  rw [scanRows]
  rw [readString_line _ _ hnl]
  dsimp only
  rw [if_neg (by simp)]
  rw [hf]
  dsimp only
  rw [hsc]

theorem scanRows_zero (n : ℕ) (mat : DistMat) (cs : List Char) :
    scanRows n 0 mat cs = (.success, mat, cs) := rfl

/-- The row loop on the rendered rows `n - fuel, …, n - 1`: it succeeds,
consumes exactly those rows, stores the names, and fills each visited row
with the re-parsed (3-significant-digit rounded) cells. -/
theorem scanRows_render (n : ℕ) (names : List String) (grid : ℕ → ℕ → ℚ)
    (hnames : names.length = n)
    (hname : ∀ s ∈ names, s.data ≠ [] ∧ ∀ c ∈ s.data, isSpaceGo c = false) :
    ∀ fuel mat rest, fuel ≤ n →
      mat.Names.length = n → mat.Matrix.length = n →
      (∀ k, k < n → (mat.Matrix.getD k []).length = n) →
      ∃ mat' : DistMat,
        scanRows n fuel mat
          ((((List.range n).drop (n - fuel)).map (fun i =>
            (names.getD i "").data
              ++ ((List.range n).map (fun j => ' ' :: ' ' :: fmtG3 (grid i j))).flatten
              ++ ['\n'])).flatten ++ rest) = (.success, mat', rest) ∧
        mat'.Names.length = n ∧ mat'.Matrix.length = n ∧
        (∀ k, k < n → (mat'.Matrix.getD k []).length = n) ∧
        (∀ k, k < n - fuel → mat'.Names.getD k "" = mat.Names.getD k "" ∧
          mat'.Matrix.getD k [] = mat.Matrix.getD k []) ∧
        (∀ k, n - fuel ≤ k → k < n → mat'.Names.getD k "" = names.getD k "" ∧
          ∀ c, c < n → (mat'.Matrix.getD k []).getD c 0 = roundSig3 (grid k c)) := by
  intro fuel
  induction fuel with
  | zero =>
    intro mat rest hfn hN hM hR
    have hdrop : (List.range n).drop (n - 0) = [] := by simp
    rw [hdrop]
    simp only [List.map_nil, List.flatten_nil, List.nil_append]
    exact ⟨mat, scanRows_zero n mat rest, hN, hM, hR,
      fun k _ => ⟨rfl, rfl⟩, fun k hk1 hk2 => absurd hk1 (by omega)⟩
  | succ fuel ih =>
    intro mat rest hfn hN hM hR
    have hi0 : n - (fuel + 1) < n := by omega
    have hdrop : (List.range n).drop (n - (fuel + 1)) =
        (n - (fuel + 1)) :: (List.range n).drop (n - fuel) := by
      rw [List.drop_eq_getElem_cons (by simpa using hi0)]
      rw [List.getElem_range]
      congr 2
      omega
    rw [hdrop, List.map_cons, List.flatten_cons, List.append_assoc]
    have hmem : names.getD (n - (fuel + 1)) "" ∈ names := by
      rw [getD_eq_getElem _ _ (by omega)]
      exact List.getElem_mem _
    obtain ⟨hnm1, hnm2⟩ := hname _ hmem
    have hnonl : '\n' ∉ (names.getD (n - (fuel + 1)) "").data ++
        ((List.range n).map
          (fun j => ' ' :: ' ' :: fmtG3 (grid (n - (fuel + 1)) j))).flatten := by
      intro hmem2
      rcases List.mem_append.mp hmem2 with h | h
      · exact not_space_ne_newline _ (hnm2 _ h) rfl
      · obtain ⟨l, hl, hcl⟩ := List.mem_flatten.mp h
        obtain ⟨j, -, rfl⟩ := List.mem_map.mp hl
        rcases List.mem_cons.mp hcl with hx | hx
        · exact absurd hx (by decide)
        · rcases List.mem_cons.mp hx with hy | hy
          · exact absurd hy (by decide)
          · exact not_space_ne_newline _ (fmtG3_no_space _ _ hy) rfl
    have heq : ((names.getD (n - (fuel + 1)) "").data ++
          ((List.range n).map
            (fun j => ' ' :: ' ' :: fmtG3 (grid (n - (fuel + 1)) j))).flatten ++ ['\n']) ++
        ((((List.range n).drop (n - fuel)).map (fun i =>
            (names.getD i "").data
              ++ ((List.range n).map (fun j => ' ' :: ' ' :: fmtG3 (grid i j))).flatten
              ++ ['\n'])).flatten ++ rest) =
        ((names.getD (n - (fuel + 1)) "").data ++
          ((List.range n).map
            (fun j => ' ' :: ' ' :: fmtG3 (grid (n - (fuel + 1)) j))).flatten) ++
        '\n' :: ((((List.range n).drop (n - fuel)).map (fun i =>
            (names.getD i "").data
              ++ ((List.range n).map (fun j => ' ' :: ' ' :: fmtG3 (grid i j))).flatten
              ++ ['\n'])).flatten ++ rest) := by
      simp
    rw [heq]
    have hfields : fields (((names.getD (n - (fuel + 1)) "").data ++
        ((List.range n).map
          (fun j => ' ' :: ' ' :: fmtG3 (grid (n - (fuel + 1)) j))).flatten) ++ ['\n']) =
        (names.getD (n - (fuel + 1)) "").data ::
          (List.range n).map (fun j => fmtG3 (grid (n - (fuel + 1)) j)) := by
      rw [show ((List.range n).map
            (fun j => ' ' :: ' ' :: fmtG3 (grid (n - (fuel + 1)) j))).flatten =
          (((List.range n).map (fun j => fmtG3 (grid (n - (fuel + 1)) j))).map
            (fun t => ' ' :: ' ' :: t)).flatten from by rw [List.map_map]; rfl]
      exact fields_row _ _ hnm1 hnm2 (fun t ht => by
        obtain ⟨j, -, rfl⟩ := List.mem_map.mp ht
        exact ⟨fmtG3_ne_nil _, fmtG3_no_space _⟩)
    obtain ⟨mat2, hsc, hsc1, hsc2, hsc3, hsc4, hsc5, hsc6⟩ :=
      scanRowCells_spec n
        ((names.getD (n - (fuel + 1)) "").data ::
          (List.range n).map (fun j => fmtG3 (grid (n - (fuel + 1)) j)))
        (n - (fuel + 1)) (fun j => roundSig3 (grid (n - (fuel + 1)) (j - 1)))
        (fun j hj1 hj2 => by
          obtain ⟨j0, rfl⟩ : ∃ j0, j = j0 + 1 := ⟨j - 1, by omega⟩
          rw [List.getD_cons_succ]
          rw [getD_map _ _ 0 (by simp; omega) []]
          rw [show (List.range n).getD j0 0 = j0 from by
            rw [List.getD_eq_getElem?_getD, List.getElem?_range (by omega)]
            rfl]
          dsimp only
          exact parseFloat_fmtG3 _)
        (by simp) n 1
        ⟨mat.Matrix, mat.Names.set (n - (fuel + 1))
          (String.mk (names.getD (n - (fuel + 1)) "").data)⟩
        (by omega) (by omega)
    rw [scanRows_step_success n fuel mat mat2 _ _ hnonl _ _ hfields hsc]
    have hN2 : mat2.Names.length = n := by
      rw [hsc1]
      simpa using hN
    have hM2 : mat2.Matrix.length = n := by rw [hsc2]; exact hM
    have hR2 : ∀ k, k < n → (mat2.Matrix.getD k []).length = n := by
      intro k hk
      by_cases hki : k = n - (fuel + 1)
      · subst hki
        rw [hsc4]
        exact hR _ hk
      · rw [hsc3 _ hki]
        exact hR _ hk
    obtain ⟨mat', hrun, hfin1, hfin2, hfin3, hold, hset⟩ :=
      ih mat2 rest (by omega) hN2 hM2 hR2
    refine ⟨mat', hrun, hfin1, hfin2, hfin3, ?_, ?_⟩
    · intro k hk
      have hk2 : k < n - fuel := by omega
      have hki : k ≠ n - (fuel + 1) := by omega
      obtain ⟨ho1, ho2⟩ := hold k hk2
      constructor
      · rw [ho1, hsc1]
        dsimp only
        rw [getD_set_ne _ (by omega)]
      · rw [ho2, hsc3 _ hki]
    · intro k hk1 hk2
      by_cases hki : k = n - (fuel + 1)
      · subst hki
        obtain ⟨ho1, ho2⟩ := hold (n - (fuel + 1)) (by omega)
        constructor
        · rw [ho1, hsc1]
          dsimp only
          rw [getD_set_self _ _ _ (by omega)]
        · intro c hc
          rw [ho2]
          have := hsc6 c (by omega) hc
            (by dsimp only; rw [hR _ hi0]; exact hc) (by dsimp only; omega)
          rw [this]
          rw [show c + 1 - 1 = c from by omega]
      · exact hset k (by omega) hk2


/-- Scanning the rendered text of a well-formed `DistMat` succeeds, leaves no
unread input, and yields the same names with every cell replaced by its
3-significant-digit rounding. -/
theorem scan_render (d : DistMat)
    (hN : d.Names.length = d.Matrix.length)
    (hR : ∀ k, k < d.Matrix.length → (d.Matrix.getD k []).length = d.Matrix.length)
    (hname : ∀ s ∈ d.Names, s.data ≠ [] ∧ ∀ c ∈ s.data, isSpaceGo c = false) :
    (NewScanner d.render).Scan =
      (.success, ⟨[], some ⟨d.Matrix.map (fun row => row.map roundSig3), d.Names⟩⟩) := by
  have hnl : '\n' ∉ natToChars d.Matrix.length :=
    fun hm => absurd (natToChars_digits _ '\n' hm) (by decide)
  have hany : (natToChars d.Matrix.length ++ ['\n']).any isDigitB = true := by
    rw [List.any_eq_true]
    obtain ⟨c, cs', hcons⟩ := List.exists_cons_of_ne_nil (natToChars_ne_nil d.Matrix.length)
    refine ⟨c, List.mem_append_left _ ?_, natToChars_digits d.Matrix.length c ?_⟩ <;>
      · rw [hcons]; exact List.mem_cons_self _ _
  have hNDn : (NewDistMat d.Matrix.length).Names.length = d.Matrix.length := by
    simp [NewDistMat]
  have hNDm : (NewDistMat d.Matrix.length).Matrix.length = d.Matrix.length := by
    simp [NewDistMat]
  have hNDr : ∀ k, k < d.Matrix.length →
      ((NewDistMat d.Matrix.length).Matrix.getD k []).length = d.Matrix.length := by
    intro k hk
    rw [NewDistMat]
    dsimp only
    rw [getD_eq_getElem _ _ (by simpa using hk), List.getElem_replicate]
    simp
  have hrows := scanRows_render d.Matrix.length d.Names
    (fun i j => getCell d.Matrix i j) hN hname d.Matrix.length
    (NewDistMat d.Matrix.length) [] (le_refl _) hNDn hNDm hNDr
  rw [Nat.sub_self, List.drop_zero, List.append_nil] at hrows
  obtain ⟨mat', hrun, hf1, hf2, hf3, hold, hset⟩ := hrows
  have hmat : mat' = ⟨d.Matrix.map (fun row => row.map roundSig3), d.Names⟩ := by
    have hnames2 : mat'.Names = d.Names := by
      apply List.ext_getElem (by rw [hf1, hN])
      intro k h1 h2
      have hk : k < d.Matrix.length := by rw [hf1] at h1; omega
      have := (hset k (by omega) hk).1
      rwa [getD_eq_getElem _ _ h1, getD_eq_getElem _ _ h2] at this
    have hmatrix : mat'.Matrix = d.Matrix.map (fun row => row.map roundSig3) := by
      apply mat_ext_getD
      · rw [hf2, List.length_map]
      · intro r hr
        have hrn : r < d.Matrix.length := by rw [hf2] at hr; exact hr
        rw [hf3 r hrn, getD_map _ _ [] hrn [], List.length_map, hR r hrn]
      · intro r c hr hc
        have hrn : r < d.Matrix.length := by rw [hf2] at hr; exact hr
        have hcn : c < d.Matrix.length := by rw [hf3 r hrn] at hc; exact hc
        have hcell := (hset r (by omega) hrn).2 c hcn
        rw [hcell, getD_map _ _ [] hrn [], getD_map _ _ 0 (by rw [hR r hrn]; exact hcn) 0]
        rfl
    cases mat'
    simp only [DistMat.mk.injEq]
    exact ⟨hmatrix, hnames2⟩
  have hskip : skipNoDigit ((natToChars d.Matrix.length ++ '\n' ::
      ((List.range d.Matrix.length).map (fun i =>
        (d.Names.getD i "").data
          ++ ((List.range d.Matrix.length).map
            (fun j => ' ' :: ' ' :: fmtG3 (getCell d.Matrix i j))).flatten
          ++ ['\n'])).flatten).length + 1)
      (natToChars d.Matrix.length ++ '\n' ::
        ((List.range d.Matrix.length).map (fun i =>
          (d.Names.getD i "").data
            ++ ((List.range d.Matrix.length).map
              (fun j => ' ' :: ' ' :: fmtG3 (getCell d.Matrix i j))).flatten
            ++ ['\n'])).flatten) =
      (natToChars d.Matrix.length ++ ['\n'], false,
        ((List.range d.Matrix.length).map (fun i =>
          (d.Names.getD i "").data
            ++ ((List.range d.Matrix.length).map
              (fun j => ' ' :: ' ' :: fmtG3 (getCell d.Matrix i j))).flatten
            ++ ['\n'])).flatten) := by
    rw [skipNoDigit]
    rw [readString_line _ _ hnl]
    dsimp only
    rw [if_neg (by simp [hany])]
  rw [show NewScanner d.render = ⟨d.render, none⟩ from rfl]
  simp only [Scanner.Scan]
  simp only [DistMat.render]
  rw [hskip]
  dsimp only
  rw [if_neg (by simp)]
  rw [trimRight_digits _ (natToChars_digits _), atoi_natToChars]
  dsimp only
  rw [if_neg (by omega)]
  rw [Int.toNat_natCast]
  rw [hrun]
  dsimp only
  rw [hmat]

/- # Shape facts guaranteed by a successful scan -/

/-- The cell loop never touches the names and preserves all dimensions. -/
theorem scanRowCells_shape (n : ℕ) (fs : List (List Char)) (i : ℕ) :
    ∀ fuel j mat res mat', scanRowCells n fs i fuel j mat = (res, mat') →
      mat'.Names = mat.Names ∧ mat'.Matrix.length = mat.Matrix.length ∧
      ∀ a, (mat'.Matrix.getD a []).length = (mat.Matrix.getD a []).length := by
  intro fuel
  induction fuel with
  | zero =>
    intro j mat res mat' h
    rw [scanRowCells] at h
    injection h with h1 h2
    subst h2
    exact ⟨rfl, rfl, fun a => rfl⟩
  | succ fuel ih =>
    intro j mat res mat' h
    rw [scanRowCells] at h
    split at h
    · rcases hp : parseFloat (fs.getD j []) with _ | v
      · rw [hp] at h
        dsimp only at h
        injection h with h1 h2
        subst h2
        exact ⟨rfl, rfl, fun a => rfl⟩
      · rw [hp] at h
        dsimp only at h
        obtain ⟨g1, g2, g3⟩ := ih _ _ _ _ h
        refine ⟨g1, ?_, ?_⟩
        · rw [g2]
          exact setCell_length _ _ _ _
        · intro a
          rw [g3 a]
          exact setCell_row_length _ _ _ _ _
    · injection h with h1 h2
      subst h2
      exact ⟨rfl, rfl, fun a => rfl⟩

/-- A successful run of the row loop preserves the dimensions and stores, at
every visited index, a nonempty white-space-free name. -/
theorem scanRows_success_names (n : ℕ) :
    ∀ fuel mat cs mat' cs', fuel ≤ n → mat.Names.length = n →
      scanRows n fuel mat cs = (.success, mat', cs') →
      mat'.Matrix.length = mat.Matrix.length ∧
      (∀ a, (mat'.Matrix.getD a []).length = (mat.Matrix.getD a []).length) ∧
      mat'.Names.length = n ∧
      (∀ k, k < n - fuel ∨ n ≤ k → mat'.Names.getD k "" = mat.Names.getD k "") ∧
      (∀ k, n - fuel ≤ k → k < n →
        (mat'.Names.getD k "").data ≠ [] ∧
          ∀ c ∈ (mat'.Names.getD k "").data, isSpaceGo c = false) := by
  intro fuel
  induction fuel with
  | zero =>
    intro mat cs mat' cs' hf hl h
    rw [scanRows_zero] at h
    injection h with h1 h2
    injection h2 with h2 h3
    subst h2
    exact ⟨rfl, fun a => rfl, hl, fun k _ => rfl,
      fun k hk1 hk2 => absurd hk2 (by omega)⟩
  | succ fuel ih =>
    intro mat cs mat' cs' hf hl h
    simp only [scanRows] at h
    split at h
    · injection h with h1 h2
      exact absurd h1 (by decide)
    · rcases hfld : fields (readString cs).1 with _ | ⟨name, rest⟩
      · rw [hfld] at h
        dsimp only at h
        injection h with h1 h2
        exact absurd h1 (by decide)
      · rw [hfld] at h
        dsimp only at h
        rcases hsc : scanRowCells n (name :: rest) (n - (fuel + 1)) n 1
            ⟨mat.Matrix, mat.Names.set (n - (fuel + 1)) (String.mk name)⟩
          with ⟨r2, mat2⟩
        rw [hsc] at h
        obtain ⟨s1, s2, s3⟩ := scanRowCells_shape n (name :: rest) (n - (fuel + 1))
          n 1 _ r2 mat2 hsc
        cases r2 with
        | success =>
          dsimp only at h
          have hl2 : mat2.Names.length = n := by
            rw [s1]
            simpa using hl
          obtain ⟨g1, g2, g3, g4, g5⟩ := ih mat2 _ mat' cs' (by omega) hl2 h
          have hi0 : n - (fuel + 1) < n := by omega
          refine ⟨?_, ?_, g3, ?_, ?_⟩
          · rw [g1, s2]
          · intro a
            rw [g2 a, s3 a]
          · intro k hk
            have hk2 : k < n - fuel ∨ n ≤ k := by omega
            rw [g4 k hk2, s1]
            dsimp only
            rw [getD_set_ne _ (by omega)]
          · intro k hk1 hk2
            by_cases hki : k = n - (fuel + 1)
            · subst hki
              have hval : mat'.Names.getD (n - (fuel + 1)) "" = String.mk name := by
                rw [g4 _ (Or.inl (by omega)), s1]
                dsimp only
                rw [getD_set_self _ _ _ (by omega)]
              rw [hval]
              have hname : name ≠ [] ∧ ∀ c ∈ name, isSpaceGo c = false := by
                have := fieldsAux_tokens (readString cs).1 [] (by simp) name
                  (by rw [← fields, hfld]; exact List.mem_cons_self _ _)
                exact this
              exact ⟨by simpa using hname.1, hname.2⟩
            · exact g5 k (by omega) hk2
        | eof =>
          dsimp only at h
          injection h with h1 h2
          exact absurd h1 (by decide)
        | fatal =>
          dsimp only at h
          injection h with h1 h2
          exact absurd h1 (by decide)
        | fault =>
          dsimp only at h
          injection h with h1 h2
          exact absurd h1 (by decide)

/-- Whatever matrix a successful `Scan()` leaves behind is square, has one
name per row, and every name is a nonempty white-space-free token. -/
theorem scan_success_wf (s0 s1 : Scanner) (d : DistMat)
    (h : s0.Scan = (.success, s1)) (hd : s1.mat = some d) :
    d.Names.length = d.Matrix.length ∧
    (∀ k, k < d.Matrix.length → (d.Matrix.getD k []).length = d.Matrix.length) ∧
    (∀ s ∈ d.Names, s.data ≠ [] ∧ ∀ c ∈ s.data, isSpaceGo c = false) := by
  rcases hsk : skipNoDigit (s0.input.length + 1) s0.input with ⟨l1, err, rem⟩
  simp only [Scanner.Scan, hsk] at h
  cases err
  · simp only [Bool.false_eq_true, if_false] at h
    rcases hat : atoi (trimRight l1) with _ | nz
    · rw [hat] at h
      dsimp only at h
      injection h with h1 h2
      exact absurd h1 (by decide)
    · rw [hat] at h
      dsimp only at h
      by_cases hneg : nz < 0
      · rw [if_pos hneg] at h
        injection h with h1 h2
        exact absurd h1 (by decide)
      · rw [if_neg hneg] at h
        rcases hsr : scanRows nz.toNat nz.toNat (NewDistMat nz.toNat) rem
          with ⟨r1, m1, rem1⟩
        rw [hsr] at h
        dsimp only at h
        injection h with h1 h2
        subst h1
        rw [← h2] at hd
        dsimp only at hd
        have hdm : m1 = d := Option.some.inj hd
        subst hdm
        obtain ⟨g1, g2, g3, g4, g5⟩ := scanRows_success_names nz.toNat nz.toNat
          (NewDistMat nz.toNat) rem m1 rem1 (le_refl _) (by simp [NewDistMat]) hsr
        have hml : m1.Matrix.length = nz.toNat := by
          rw [g1]
          simp [NewDistMat]
        refine ⟨?_, ?_, ?_⟩
        · rw [g3, hml]
        · intro k hk
          rw [hml] at hk
          rw [g2 k, hml]
          rw [NewDistMat]
          dsimp only
          rw [getD_eq_getElem _ _ (by simpa using hk), List.getElem_replicate]
          simp
        · intro s hs
          obtain ⟨k, hk, hks⟩ := List.mem_iff_getElem.mp hs
          have hkn : k < nz.toNat := by
            rw [g3] at hk
            exact hk
          have := g5 k (by omega) hkn
          rwa [getD_eq_getElem _ _ hk, hks] at this
  · rw [if_pos rfl] at h
    injection h with h1 h2
    exact absurd h1 (by decide)

/-- C9: for every `DistMat` held by a scanner after a successful `Scan()`,
rendering it with `String()` and scanning the rendered text with a fresh
`Scanner` succeeds, consumes the whole text, and yields a matrix with
identical names whose every entry is the 3-significant-digit rounding
(`%.3g`) of the corresponding original entry. -/
theorem c9_round_trip (s0 s1 : Scanner) (d : DistMat)
    (hscan : s0.Scan = (.success, s1))
    (hmat : s1.DistanceMatrix = some d) :
    (NewScanner d.render).Scan =
      (.success, ⟨[], some ⟨d.Matrix.map (fun row => row.map roundSig3), d.Names⟩⟩) := by
  obtain ⟨w1, w2, w3⟩ := scan_success_wf s0 s1 d hscan hmat
  exact scan_render d w1 w2 w3

/-- A concrete run of the C9 round trip: the matrix produced by scanning a
two-taxon stream renders to text whose fresh scan succeeds with the same
names and the rounded cells. -/
theorem c9_witness :
    (NewScanner ((((NewScanner w9in).Scan).2.mat.getD ⟨[], []⟩).render)).Scan =
      (.success, ⟨[], some ⟨(((NewScanner w9in).Scan).2.mat.getD ⟨[], []⟩).Matrix.map
          (fun row => row.map roundSig3),
        (((NewScanner w9in).Scan).2.mat.getD ⟨[], []⟩).Names⟩⟩) :=
  c9_round_trip (NewScanner w9in) ((NewScanner w9in).Scan).2
    (((NewScanner w9in).Scan).2.mat.getD ⟨[], []⟩) rfl rfl
